import Mathlib

/-!
Verification development for the budget-app repository.

Shallow embedding of the core subsystems the specification describes:
the CSV-import balance reconciliation (`handleContinue` in
`src/app/category-transactions.tsx`), the sync queue
(`src/lib/syncQueue.ts`), bulk transaction creation and balance snapshot
restore (`src/lib/appwrite.ts`), the learned-merchant categorizer and the
delete queue (`src/unnamed/part_002`), and the transfer matcher (whose
source module `@/lib/csvParser` is not present under `src/`, so it is
modelled from the specification).

Conventions: machine numbers are `Int`/`Nat`; JavaScript `Map` objects are
association lists with in-place update (insertion order preserved);
timestamps are epoch milliseconds as `Nat`; fallible remote calls are
driven by explicit outcome oracles so that every run of a stateful routine
is a deterministic function of its inputs.
-/

namespace BudgetApp

/-- JavaScript `String.prototype.includes`: `sub` occurs as a contiguous
substring of `s` (as character lists). -/
def strContains (s sub : String) : Bool :=
  decide (sub.data <:+: s.data)

/-! ## Categorizer: learned-merchant fuzzy matching (`src/unnamed/part_002`)

Learned mappings (`MerchantMapping`, a JS object from normalized merchant
key to category id) are association lists in insertion order; object keys
are distinct. -/

/-- Exact-key lookup, `learnedMappings[titleKey]` (category ids are
non-empty strings, so JS truthiness coincides with presence). -/
def lookupKey (titleKey : String) : List (String × String) → Option String
  | [] => none
  | (k, c) :: rest => if k = titleKey then some c else lookupKey titleKey rest

/-- The containment loop of `findMatchingCategory`: iterate over stored
merchant keys in object order; skip stored keys shorter than 4
characters; match when the stored key occurs in the title key, or when
the title key is at least 5 characters long and occurs in the stored
key. -/
def containLoop (titleKey : String) : List (String × String) → Option String
  | [] => none
  | (storedKey, c) :: rest =>
    if storedKey.length < 4 then containLoop titleKey rest
    else if strContains titleKey storedKey then some c
    else if decide (5 ≤ titleKey.length) && strContains storedKey titleKey then some c
    else containLoop titleKey rest

/-- `findMatchingCategory` from `src/unnamed/part_002`: exact match on the
normalized key first, then the two-way substring containment loop. -/
def findMatchingCategory (titleKey : String)
    (learnedMappings : List (String × String)) : Option String :=
  match lookupKey titleKey learnedMappings with
  | some c => some c
  | none => containLoop titleKey learnedMappings

/-- The condition under which the containment loop accepts a stored
mapping for `titleKey`. -/
def containAccept (titleKey storedKey : String) : Prop :=
  4 ≤ storedKey.length ∧
    (strContains titleKey storedKey = true ∨
      (5 ≤ titleKey.length ∧ strContains storedKey titleKey = true))

/-! ## Balance snapshot restore (`restoreBalancesFromSnapshot`,
`src/lib/appwrite.ts`)

A balance document of the remote balances collection. `lastUpdated` is an
epoch-millisecond timestamp; optional snapshot fields are `Option`. -/

structure BalanceDoc where
  userId : String
  accountKey : String
  balance : Int
  lastUpdated : Nat
  previousBalance : Option Int
  previousBalanceTimestamp : Option Nat
  importBatchId : Option String
deriving DecidableEq, Repr

/-- The query filter `userId == uid && importBatchId == batchId`. -/
def balMatches (uid batchId : String) (d : BalanceDoc) : Bool :=
  d.userId == uid && d.importBatchId == some batchId

/-- The per-document update applied when `previousBalance` is non-null:
restore `balance`, stamp `lastUpdated`, clear the snapshot fields. -/
def restoreDoc (now : Nat) (d : BalanceDoc) : BalanceDoc :=
  match d.previousBalance with
  | some p =>
    { d with balance := p, lastUpdated := now, previousBalance := none,
             previousBalanceTimestamp := none, importBatchId := none }
  | none => d

/-- `restoreBalancesFromSnapshot`: list the balance documents of
(`uid`, `batchId`); if none exist return `false` without touching the
store; otherwise restore every matching document whose `previousBalance`
is non-null and return whether at least one was restored. -/
def restoreBalancesFromSnapshot (docs : List BalanceDoc)
    (uid batchId : String) (now : Nat) : List BalanceDoc × Bool :=
  let matched := docs.filter (balMatches uid batchId)
  if matched = [] then (docs, false)
  else
    (docs.map (fun d => if balMatches uid batchId d then restoreDoc now d else d),
     decide (0 < (matched.filter (fun d => d.previousBalance.isSome)).length))

/-! ## Delete queue (`startDeletingTransactions`, `src/unnamed/part_002`)

The inner for-loop deletes the listed documents one by one.  Each remote
`deleteDocument` call either succeeds or throws an error carrying a
numeric `code`, a `type` string and a `message`; outcomes are supplied by
an oracle (`firstTry` for the initial call, `retryTry` for the single
retry after a rate limit). -/

inductive DelCallResult
  | ok
  | err (code : Nat) (etype : String) (msg : String)
deriving DecidableEq, Repr

/-- `error.code === 404 || error.message?.includes('could not be found')`. -/
def is404 : DelCallResult → Bool
  | .ok => false
  | .err code _ msg => code == 404 || strContains msg "could not be found"

/-- `error.code === 429 || error.type === 'rate_limit_exceeded' ||
error.message?.includes('rate limit')`. -/
def isRateLimit : DelCallResult → Bool
  | .ok => false
  | .err code etype msg =>
    code == 429 || etype == "rate_limit_exceeded" || strContains msg "rate limit"

structure DeleteEnv where
  firstTry : String → DelCallResult
  retryTry : String → DelCallResult

/-- Observable side effects of the delete loop: remote delete calls and
`setTimeout` waits (milliseconds). -/
inductive DelEvent
  | callDelete (docId : String)
  | wait (ms : Nat)
deriving DecidableEq, Repr

/-- One document of the batch: success waits 500 ms; a 404-class error is
counted as deleted with no wait; a rate-limit error waits 10 s and retries
the same document exactly once, counting it if the retry succeeds and
merely logging otherwise; any other error is logged and not counted.
Returns the increment to `totalDeleted` and the event trace. -/
def deleteOneDoc (env : DeleteEnv) (docId : String) : Nat × List DelEvent :=
  match env.firstTry docId with
  | .ok => (1, [.callDelete docId, .wait 500])
  | .err c t m =>
    if is404 (.err c t m) then (1, [.callDelete docId])
    else if isRateLimit (.err c t m) then
      match env.retryTry docId with
      | .ok => (1, [.callDelete docId, .wait 10000, .callDelete docId])
      | .err _ _ _ => (0, [.callDelete docId, .wait 10000, .callDelete docId])
    else (0, [.callDelete docId])

/-- The for-loop over the listed documents: total deleted count and
concatenated event trace. -/
def deleteDocsLoop (env : DeleteEnv) : List String → Nat × List DelEvent
  | [] => (0, [])
  | d :: rest =>
    let r := deleteOneDoc env d
    let r' := deleteDocsLoop env rest
    (r.1 + r'.1, r.2 ++ r'.2)

/-- Concrete delete oracle for witnesses: "a" is already gone (404),
"b" always hits the rate limit (including on the retry), everything
else succeeds. -/
def delEnvExample : DeleteEnv :=
  { firstTry := fun d =>
      if d = "a" then
        .err 404 "document_not_found"
          "Document with the requested ID could not be found."
      else if d = "b" then
        .err 429 "rate_limit_exceeded" "Rate limit exceeded"
      else .ok,
    retryTry := fun _ =>
      .err 429 "rate_limit_exceeded" "Rate limit exceeded" }

/-! ## Bulk transaction creation (`createBulkTransactions`,
`src/lib/appwrite.ts`)

Uploads run in batches of `BATCH_SIZE = 2` with a 2 s pause between
batches.  Each `createTransaction` call either succeeds or throws with a
message (oracle `upload`, keyed by the queue transaction id, which is
reused as the remote document id).  The cooperative-cancellation flag is
polled at discrete times: the loop carries a tick counter that advances
by one per batch, and `cancelAt` gives the first tick at which
`shouldCancel()` reports true (`none` = never). -/

inductive SyncSt
  | pending | syncing | completed | failed
deriving DecidableEq, Repr

structure QTx where
  id : String
  userId : String
  syncStatus : SyncSt
  attempts : Nat
  error : Option String := none
deriving DecidableEq, Repr

inductive UpOutcome
  | ok
  | err (msg : String)
deriving DecidableEq, Repr

/-- `message.includes('Document with the requested ID already exists') ||
message.includes('already exists')`. -/
def isDuplicateMsg (m : String) : Bool :=
  strContains m "Document with the requested ID already exists" ||
    strContains m "already exists"

/-- The cancellation flag value at tick `t`. -/
def cancelFlag (cancelAt : Option Nat) (t : Nat) : Bool :=
  match cancelAt with
  | none => false
  | some c => decide (c ≤ t)

inductive ItemRes
  | success
  | failure (msg : String)
  | skipped
deriving DecidableEq, Repr

/-- One item of a batch: a set cancellation flag skips the call entirely;
otherwise the create call runs, and a thrown duplicate-id error is
converted to success.  Also returns the attempted-call trace. -/
def processItem (upload : String → UpOutcome) (flag : Bool) (tx : QTx) :
    ItemRes × List String :=
  if flag then (.skipped, [])
  else
    match upload tx.id with
    | .ok => (.success, [tx.id])
    | .err m =>
      if isDuplicateMsg m then (.success, [tx.id]) else (.failure m, [tx.id])

/-- Error messages pushed for one item result. -/
def itemErrs : ItemRes → List String
  | .failure m => [m]
  | _ => []

structure BulkOut (σ : Type) where
  successfulIndices : List Nat
  errors : List String
  uploads : List String
  time : Nat
  state : σ

/-- The batch loop of `createBulkTransactions`: `txs` is the remaining
suffix, `i` the absolute index of its head, `t` the poll tick, `s` the
durable state threaded through `onBatchSuccess` (the sync queue instantiates
it with the persisted queue).  Each batch head checks the cancellation
flag and breaks if set; after a successful batch, `onBatchSuccess`
receives the batch's absolute successful indices. -/
def bulkGo {σ : Type} (upload : String → UpOutcome) (cancelAt : Option Nat)
    (onBatchSuccess : List Nat → σ → σ) :
    List QTx → Nat → Nat → σ → BulkOut σ
  | [], _, t, s => ⟨[], [], [], t, s⟩
  | [a], i, t, s =>
    if cancelFlag cancelAt t then ⟨[], [], [], t, s⟩
    else
      let ra := processItem upload (cancelFlag cancelAt t) a
      let succ := if ra.1 = ItemRes.success then [i] else []
      let s' := if succ.isEmpty then s else onBatchSuccess succ s
      ⟨succ, itemErrs ra.1, ra.2, t + 1, s'⟩
  | a :: b :: rest, i, t, s =>
    if cancelFlag cancelAt t then ⟨[], [], [], t, s⟩
    else
      let ra := processItem upload (cancelFlag cancelAt t) a
      let rb := processItem upload (cancelFlag cancelAt t) b
      let succ := (if ra.1 = ItemRes.success then [i] else []) ++
        (if rb.1 = ItemRes.success then [i + 1] else [])
      let s' := if succ.isEmpty then s else onBatchSuccess succ s
      let o := bulkGo upload cancelAt onBatchSuccess rest (i + 2) (t + 1) s'
      ⟨succ ++ o.successfulIndices, itemErrs ra.1 ++ itemErrs rb.1 ++ o.errors,
       ra.2 ++ rb.2 ++ o.uploads, o.time, o.state⟩

structure BulkResult where
  created : Nat
  failed : Nat
  errors : List String
  successfulIndices : List Nat
deriving DecidableEq, Repr

/-- `createBulkTransactions`: run the batch loop from index 0; `created`
accumulates the per-batch count of non-null results (exactly the
successful ones) and `failed` is `errors.length`. -/
def createBulkTransactions {σ : Type} (upload : String → UpOutcome)
    (cancelAt : Option Nat) (onBatchSuccess : List Nat → σ → σ)
    (txs : List QTx) (t0 : Nat) (s0 : σ) :
    BulkResult × Nat × σ × List String :=
  let o := bulkGo upload cancelAt onBatchSuccess txs 0 t0 s0
  ({ created := o.successfulIndices.length, failed := o.errors.length,
     errors := o.errors, successfulIndices := o.successfulIndices },
   o.time, o.state, o.uploads)

/-- An upload outcome the code counts as a success: a clean create, or a
thrown duplicate-document-id error. -/
def uploadSuccessB (o : UpOutcome) : Bool :=
  match o with
  | .ok => true
  | .err m => isDuplicateMsg m

/-- Reference recursion for the successful absolute indices when no
cancellation occurs. -/
def specSucc (upload : String → UpOutcome) : List QTx → Nat → List Nat
  | [], _ => []
  | tx :: rest, i =>
    (if uploadSuccessB (upload tx.id) then [i] else []) ++
      specSucc upload rest (i + 1)

/-- Reference recursion for the pushed error messages when no
cancellation occurs. -/
def specErrs (upload : String → UpOutcome) : List QTx → List String
  | [] => []
  | tx :: rest =>
    (match upload tx.id with
     | .ok => []
     | .err m => if isDuplicateMsg m then [] else [m]) ++ specErrs upload rest

/-! ## Sync queue (`startSyncingTransactions`, `src/lib/syncQueue.ts`)

The run is a deterministic function of the persisted queue and an
environment of remote observations: the delete-operation status read at
the start (`delete0`) and at the top of each per-user iteration
(`deleteAtUser`), the tick at which the 500 ms cancellation poll first
sees an active delete (`cancelAt`, shared with the batch loop's
`shouldCancel`), the per-id upload outcomes, and whether processing a
user's batch throws (`userThrows`, modelling an exception raised by
`createBulkTransactions` itself, e.g. an unconfigured backend). -/

inductive DelSt
  | pending | inProgress | completed | failed
deriving DecidableEq, Repr

/-- Initial guard: an existing delete operation whose status is not
`completed` blocks the sync run. -/
def delBlocksStart : Option DelSt → Bool
  | none => false
  | some s => s != DelSt.completed

/-- Mid-run guard: `status === 'in-progress' || status === 'pending'`. -/
def delActive : Option DelSt → Bool
  | none => false
  | some s => s == DelSt.inProgress || s == DelSt.pending

def MAX_RETRY_ATTEMPTS : Nat := 3

/-- The filter selecting the transactions a run uploads: pending, stuck
syncing, or failed with attempts below the retry cap. -/
def isPendingTx (t : QTx) : Bool :=
  t.syncStatus == SyncSt.pending || t.syncStatus == SyncSt.syncing ||
    (t.syncStatus == SyncSt.failed &&
      decide (t.attempts < MAX_RETRY_ATTEMPTS))

/-- Network-class error detection on the caught message. -/
def isNetworkError (msg : String) : Bool :=
  strContains msg "Network request failed" || strContains msg "network" ||
    strContains msg "timeout"

/-- The per-item transform of the catch block of the per-user loop
(`syncQueue.ts`): items of the failed user batch go back to `pending`
when the error is network-class or `attempts < MAX_RETRY_ATTEMPTS - 1`,
and to `failed` otherwise, incrementing `attempts` either way. -/
def requeueTx (utxs : List QTx) (msg : String) (t : QTx) : QTx :=
  if utxs.any (fun ut => ut.id == t.id) then
    if isNetworkError msg || decide (t.attempts < MAX_RETRY_ATTEMPTS - 1) then
      { t with syncStatus := SyncSt.pending, attempts := t.attempts + 1,
               error := some msg }
    else
      { t with syncStatus := SyncSt.failed, attempts := t.attempts + 1,
               error := some msg }
  else t

/-- The catch block applied to the whole persisted queue. -/
def requeueAfterError (queue utxs : List QTx) (msg : String) : List QTx :=
  queue.map (requeueTx utxs msg)

/-- Position of the queue entry with this id inside a user's batch list
(`userTransactions.findIndex(ut => ut.id === t.id)`). -/
def findIdxFrom (p : QTx → Bool) : List QTx → Nat → Option Nat
  | [], _ => none
  | x :: rest, n => if p x then some n else findIdxFrom p rest (n + 1)

def txIndexIn (utxs : List QTx) (id : String) : Option Nat :=
  findIdxFrom (fun ut => ut.id == id) utxs 0

/-- `onBatchSuccess`: immediately mark the batch's successful
transactions completed in the persisted queue. -/
def markBatchCompleted (utxs : List QTx) (indices : List Nat)
    (queue : List QTx) : List QTx :=
  queue.map fun t =>
    match txIndexIn utxs t.id with
    | some ix =>
      if indices.contains ix then
        { t with syncStatus := SyncSt.completed, attempts := t.attempts + 1 }
      else t
    | none => t

/-- The queue update after a user's bulk call returns: successful indices
become completed; the rest of the batch becomes failed when any error was
recorded. -/
def finalizeUser (utxs : List QTx) (res : BulkResult)
    (queue : List QTx) : List QTx :=
  queue.map fun t =>
    match txIndexIn utxs t.id with
    | some ix =>
      if res.successfulIndices.contains ix then
        { t with syncStatus := SyncSt.completed, attempts := t.attempts + 1 }
      else if decide (0 < res.errors.length) then
        { t with syncStatus := SyncSt.failed, attempts := t.attempts + 1,
                 error := some "Failed to create transaction" }
      else t
    | none => t

/-- Cancellation cleanup: every queue entry stuck in `syncing` goes back
to `pending`. -/
def resetSyncingToPending (queue : List QTx) : List QTx :=
  queue.map fun t =>
    if t.syncStatus == SyncSt.syncing then
      { t with syncStatus := SyncSt.pending }
    else t

/-- Mark the selected transactions as `syncing` before uploading. -/
def markPendingAsSyncing (pend queue : List QTx) : List QTx :=
  queue.map fun t =>
    if pend.any (fun p => p.id == t.id) then
      { t with syncStatus := SyncSt.syncing }
    else t

/-- User ids in first-appearance order (`Map` grouping preserves
insertion order). -/
def userOrder (pend : List QTx) : List String :=
  pend.foldl (fun acc t =>
    if acc.contains t.userId then acc else acc ++ [t.userId]) []

def userTxsFor (pend : List QTx) (u : String) : List QTx :=
  pend.filter (fun t => t.userId == u)

structure SyncEnv where
  delete0 : Option DelSt
  deleteAtUser : Nat → Option DelSt
  cancelAt : Option Nat
  upload : String → UpOutcome
  userThrows : String → Option String

structure SyncRunOut where
  succeeded : Nat
  failed : Nat
  queue : List QTx
  uploads : List String
deriving DecidableEq, Repr

/-- The per-user loop of `startSyncingTransactions`.  `k` numbers the
iterations (for the delete-status oracle), `time` is the cancellation
poll tick, `ups` the attempted-upload trace.  An active delete observed
at the top of an iteration, or a set cancellation flag observed right
after the user's bulk call, reverts `syncing` entries to `pending` and
returns the totals accumulated so far. -/
def syncUserLoop (env : SyncEnv) (pend : List QTx) :
    List String → Nat → List QTx → Nat → Nat → Nat → List String → SyncRunOut
  | [], _, queue, tS, tF, _, ups => ⟨tS, tF, queue, ups⟩
  | u :: rest, k, queue, tS, tF, time, ups =>
    if delActive (env.deleteAtUser k) then
      ⟨tS, tF, resetSyncingToPending queue, ups⟩
    else
      match env.userThrows u with
      | some msg =>
        syncUserLoop env pend rest (k + 1)
          (requeueAfterError queue (userTxsFor pend u) msg)
          tS (tF + (userTxsFor pend u).length) time ups
      | none =>
        let utxs := userTxsFor pend u
        let o := createBulkTransactions env.upload env.cancelAt
          (markBatchCompleted utxs) utxs time queue
        if cancelFlag env.cancelAt o.2.1 then
          ⟨tS, tF, resetSyncingToPending o.2.2.1, ups ++ o.2.2.2⟩
        else
          syncUserLoop env pend rest (k + 1)
            (finalizeUser utxs o.1 o.2.2.1)
            (tS + o.1.created) (tF + o.1.failed) o.2.1 (ups ++ o.2.2.2)

/-- `startSyncingTransactions`: abort on a non-completed delete
operation, select the retryable transactions, mark them syncing, and run
the per-user loop.  Returns the `{succeeded, failed}` pair, the final
persisted queue, and the trace of attempted remote creates. -/
def startSyncingTransactions (env : SyncEnv) (queue0 : List QTx) :
    (Nat × Nat) × List QTx × List String :=
  if delBlocksStart env.delete0 then ((0, 0), queue0, [])
  else
    let pend := queue0.filter isPendingTx
    if pend.isEmpty then ((0, 0), queue0, [])
    else
      let out := syncUserLoop env pend (userOrder pend) 0
        (markPendingAsSyncing pend queue0) 0 0 0 []
      ((out.succeeded, out.failed), out.queue, out.uploads)

/-- Five pending single-user queue entries, for the cancellation
scenario of the specification. -/
def queueFive : List QTx :=
  [{ id := "t1", userId := "u", syncStatus := SyncSt.pending, attempts := 0 },
   { id := "t2", userId := "u", syncStatus := SyncSt.pending, attempts := 0 },
   { id := "t3", userId := "u", syncStatus := SyncSt.pending, attempts := 0 },
   { id := "t4", userId := "u", syncStatus := SyncSt.pending, attempts := 0 },
   { id := "t5", userId := "u", syncStatus := SyncSt.pending, attempts := 0 }]

/-- Environment in which every upload succeeds, no delete operation
exists at the start or at user boundaries, and the cancellation poll
first reports an active delete at tick 1 — i.e. after the first batch of
2 uploads completes. -/
def envCancelAfterBatch1 : SyncEnv :=
  { delete0 := none, deleteAtUser := fun _ => none, cancelAt := some 1,
    upload := fun _ => UpOutcome.ok, userThrows := fun _ => none }

/-! ## Import balance reconciliation (`handleContinue`,
`src/app/category-transactions.tsx`)

Each parsed CSV row is modelled after provider parsing with its resolved
account key: `resolveAccountInfo` lives in `@/lib/accountBalances`, which
is not under `src/`, and both claims quantify over "rows resolved to that
account", so resolution is abstracted into a per-row `key` field (the
hint maps only feed `resolveAccountInfo`'s inputs).  The `balance` CSV
field is modelled post-parse: `missing` for a falsy field (the
`!transaction.balance` skip), `unparseable` for a `parseFloat` NaN, and
`cents v` for `Math.round(parseFloat(balance) * 100)`.  `amount` is the
signed pending delta in cents (`Math.round(amount * 100)`), `none` when
non-numeric.  `ts` is the epoch-millisecond time of
`completedDate || startedDate`.  JS `Map`s are association lists:
`setEntry` updates in place and appends new keys, preserving insertion
order. -/

inductive BalField
  | missing | unparseable | cents (v : Int)
deriving DecidableEq, Repr

structure PRow where
  key : String
  state : String
  amount : Option Int
  balance : BalField
  ts : Nat
deriving DecidableEq, Repr

def balCents : BalField → Option Int
  | .cents v => some v
  | _ => none

/-- `String.prototype.toUpperCase` on the ASCII states this pipeline
compares against, as a character-list map. -/
def strToUpper (s : String) : String :=
  ⟨s.data.map Char.toUpper⟩

/-- `!transaction.state || transaction.state.toUpperCase() === 'COMPLETED'`
(a falsy state is not skipped by the completed-row filter). -/
def isCompletedState (s : String) : Bool :=
  s == "" || strToUpper s == "COMPLETED"

/-- `transaction.state && transaction.state.toUpperCase() === 'PENDING'`. -/
def isPendingState (s : String) : Bool :=
  s != "" && strToUpper s == "PENDING"

/-- A row the first pass keeps: truthy balance field, completed-class
state, parseable balance. -/
def firstPassEligible (r : PRow) : Bool :=
  r.balance != BalField.missing && isCompletedState r.state &&
    (balCents r.balance).isSome

def getEntry {β : Type} : List (String × β) → String → Option β
  | [], _ => none
  | (k, v) :: rest, key => if k = key then some v else getEntry rest key

def setEntry {β : Type} : List (String × β) → String → β → List (String × β)
  | [], key, v => [(key, v)]
  | (k0, v0) :: rest, key, v =>
    if k0 = key then (key, v) :: rest else (k0, v0) :: setEntry rest key v

/-- One first-pass step: skip falsy balances, non-completed states and
unparseable balances; otherwise keep the row's balance for its account
when there is no entry yet or the row's timestamp is strictly later. -/
def firstPassStep (m : List (String × (Int × Nat))) (r : PRow) :
    List (String × (Int × Nat)) :=
  if r.balance == BalField.missing then m
  else if !isCompletedState r.state then m
  else
    match balCents r.balance with
    | none => m
    | some b =>
      match getEntry m r.key with
      | none => setEntry m r.key (b, r.ts)
      | some (b0, t0) =>
        if r.ts > t0 then setEntry m r.key (b, r.ts) else m

def firstPass (rows : List PRow) : List (String × (Int × Nat)) :=
  rows.foldl firstPassStep []

/-- One second-pass step: accumulate the signed amounts of pending rows
per account (`(pendingAdjustments.get(key) || 0) + pendingInCents`). -/
def pendingStep (m : List (String × Int)) (r : PRow) : List (String × Int) :=
  if !isPendingState r.state then m
  else
    match r.amount with
    | none => m
    | some a => setEntry m r.key ((getEntry m r.key).getD 0 + a)

def pendingAdjustments (rows : List PRow) : List (String × Int) :=
  rows.foldl pendingStep []

/-- Apply the summed pending adjustments: only accounts that already have
a first-pass entry are updated (`if (existing) existing.balance += adj`). -/
def applyAdjustments (m : List (String × (Int × Nat)))
    (adj : List (String × Int)) : List (String × (Int × Nat)) :=
  adj.foldl (fun acc ka =>
    match getEntry acc ka.1 with
    | some (b, t) => setEntry acc ka.1 (b + ka.2, t)
    | none => acc) m

/-- The final per-account balances of the import; one
`AccountBalanceDoc` is written per entry of this map. -/
def finalBalances (rows : List PRow) : List (String × (Int × Nat)) :=
  applyAdjustments (firstPass rows) (pendingAdjustments rows)

/-- Sum of the signed pending amounts (cents) resolved to account `k`. -/
def pendingSum (rows : List PRow) (k : String) : Int :=
  ((rows.filter (fun x => x.key == k && isPendingState x.state)).filterMap
    PRow.amount).sum

/-- The scalar comparison the first pass performs per account: keep the
entry with the strictly greater timestamp, first seen wins ties. -/
def bestStep (acc : Option (Int × Nat)) (bt : Int × Nat) : Option (Int × Nat) :=
  match acc with
  | none => some bt
  | some (b0, t0) => if bt.2 > t0 then some bt else some (b0, t0)

/-- Reference combination for the second pass projected to one key:
an existing accumulator entry is increased by the pending total, and a
key with no entry appears exactly when some pending amount exists. -/
def optAdd (o : Option Int) (l : List Int) : Option Int :=
  match o, l with
  | some c, l => some (c + l.sum)
  | none, [] => none
  | none, l => some l.sum

/-- The claim's balance scenario: three completed rows with balances
100.00, 150.00, 90.00 (cents 10000, 15000, 9000) at increasing
timestamps and one pending row of -20.00 (cents -2000), all resolved to
account "acc". -/
def balScenario : List PRow :=
  [{ key := "acc", state := "COMPLETED", amount := some (-500),
     balance := BalField.cents 10000, ts := 1 },
   { key := "acc", state := "COMPLETED", amount := some 5000,
     balance := BalField.cents 15000, ts := 2 },
   { key := "acc", state := "COMPLETED", amount := some (-6000),
     balance := BalField.cents 9000, ts := 3 },
   { key := "acc", state := "PENDING", amount := some (-2000),
     balance := BalField.missing, ts := 4 }]

/-! ## Transfer matcher (`markTransfers`)

Modelled from the spec: `markTransfers` lives in `@/lib/csvParser`, which
is not present under `src/` (only its caller in
`category-transactions.tsx` is).  Spec §4.3: within one batch, pair a
debit with a credit of the same absolute amount in a different resolved
account; on a match both transactions receive reciprocal
`matchedTransferId` plus `isAnalyticsProtected = true` and
`excludeFromAnalytics = true`; unmatched rows are left untouched; the
matcher is deterministic, preferring the closest pair in time with ties
broken by input order. -/

structure ConvTx where
  id : String
  amount : Int
  account : String
  time : Nat
  matchedTransferId : Option String := none
  excludeFromAnalytics : Bool := false
  isAnalyticsProtected : Bool := false
deriving DecidableEq, Repr, Inhabited

/-- Modelled from the spec: row `j` can be the credit leg for debit row
`i` — distinct rows, `i` a debit, `j` the opposite amount, different
accounts, neither already matched. -/
def candidate (txs : List ConvTx) (i j : Nat) : Bool :=
  match txs.get? i, txs.get? j with
  | some a, some b =>
    decide (i ≠ j) && decide (a.amount < 0) &&
      decide (b.amount = -a.amount) && decide (a.account ≠ b.account) &&
      decide (a.matchedTransferId = none) &&
      decide (b.matchedTransferId = none)
  | _, _ => false

def timeDelta (a b : ConvTx) : Nat :=
  max a.time b.time - min a.time b.time

/-- Modelled from the spec: the best partner for debit `i` among the
rows not yet taken — smallest time delta, ties broken by lowest index. -/
def pickBest (txs : List ConvTx) (i : Nat) (taken : List Nat) :
    Option Nat :=
  (List.range txs.length).foldl
    (fun best j =>
      if candidate txs i j && !(taken.contains j) then
        match best with
        | none => some j
        | some j0 =>
          if timeDelta (txs.getD i default) (txs.getD j default)
              < timeDelta (txs.getD i default) (txs.getD j0 default) then
            some j
          else some j0
      else best)
    none

/-- Modelled from the spec: scan the batch in input order, matching each
unmatched debit with its best available credit; each row joins at most
one pair. -/
def pickPairs (txs : List ConvTx) : List (Nat × Nat) :=
  ((List.range txs.length).foldl
    (fun st i =>
      if st.2.contains i then st
      else
        match pickBest txs i st.2 with
        | some j => ((i, j) :: st.1, i :: j :: st.2)
        | none => st)
    ([], [])).1

/-- The (unique) index paired with `i`, if any. -/
def findPartner : List (Nat × Nat) → Nat → Option Nat
  | [], _ => none
  | (a, b) :: rest, i =>
    if a = i then some b
    else if b = i then some a
    else findPartner rest i

/-- Modelled from the spec: `markTransfers` flags both legs of every
matched pair with the partner's id and the analytics-exclusion flags,
leaving all other rows untouched. -/
def markTransfers (txs : List ConvTx) : List ConvTx :=
  (List.range txs.length).map (fun i =>
    let t := txs.getD i default
    match findPartner (pickPairs txs) i with
    | some j =>
      { t with matchedTransferId := some ((txs.getD j default).id),
               excludeFromAnalytics := true,
               isAnalyticsProtected := true }
    | none => t)

/-- All indices occurring in a pair list. -/
def pairMembers : List (Nat × Nat) → List Nat
  | [] => []
  | p :: rest => p.1 :: p.2 :: pairMembers rest

/-! ## Theorems -/

/-- A string can only contain substrings no longer than itself. -/
theorem strContains_length_le {s sub : String}
    (h : strContains s sub = true) : sub.length ≤ s.length :=
  (of_decide_eq_true h).length_le

/-- Any category returned by the containment loop comes from a stored key
of length at least 4 that matches in one of the two directions. -/
theorem containLoop_sound {titleKey c : String} :
    ∀ {m : List (String × String)}, containLoop titleKey m = some c →
      ∃ k, (k, c) ∈ m ∧ containAccept titleKey k := by
  intro m
  induction m with
  | nil => intro h; simp [containLoop] at h
  | cons p rest ih =>
    obtain ⟨storedKey, c0⟩ := p
    intro h
    simp only [containLoop] at h
    split_ifs at h with h1 h2 h3
    · obtain ⟨k, hk, hacc⟩ := ih h
      exact ⟨k, List.mem_cons_of_mem _ hk, hacc⟩
    · obtain rfl : c0 = c := Option.some.inj h
      exact ⟨storedKey, List.mem_cons_self _ _,
        le_of_not_lt h1, Or.inl h2⟩
    · obtain rfl : c0 = c := Option.some.inj h
      obtain ⟨h5, hcon⟩ := Bool.and_eq_true_iff.mp h3
      exact ⟨storedKey, List.mem_cons_self _ _,
        le_of_not_lt h1, Or.inr ⟨of_decide_eq_true h5, hcon⟩⟩
    · obtain ⟨k, hk, hacc⟩ := ih h
      exact ⟨k, List.mem_cons_of_mem _ hk, hacc⟩

/-- If some stored mapping satisfies the containment condition, the loop
finds a match (both containment directions are genuinely checked). -/
theorem containLoop_complete {titleKey : String} :
    ∀ {m : List (String × String)},
      (∃ p, p ∈ m ∧ containAccept titleKey p.1) →
        (containLoop titleKey m).isSome = true := by
  intro m
  induction m with
  | nil => rintro ⟨p, hp, -⟩; simp at hp
  | cons q rest ih =>
    obtain ⟨storedKey, c0⟩ := q
    rintro ⟨p, hp, hlen, hdir⟩
    simp only [containLoop]
    rcases List.mem_cons.mp hp with rfl | hmem
    · simp only at hlen hdir
      rw [if_neg (by omega)]
      rcases hdir with hc | ⟨h5, hc⟩
      · rw [if_pos hc]; rfl
      · by_cases hfst : strContains titleKey storedKey = true
        · rw [if_pos hfst]; rfl
        · rw [if_neg hfst, if_pos (by simp [hc, h5])]; rfl
    · have hrest := ih ⟨p, hmem, hlen, hdir⟩
      split_ifs with h1 h2 h3 <;> simp_all

/-- Claim C8: in learned-merchant fuzzy matching (`findMatchingCategory`),
when no exact key match exists, substring containment is checked both ways
(stored key inside the new title key, or the new title key inside a stored
key), guarded so that stored keys shorter than 4 characters are skipped,
a matching stored key always has length at least 4, and a title key
shorter than 4 characters never produces a containment match. -/
theorem C8_fuzzy_containment (titleKey : String)
    (m : List (String × String))
    (hnoexact : lookupKey titleKey m = none) :
    findMatchingCategory titleKey m = containLoop titleKey m ∧
    (∀ c, findMatchingCategory titleKey m = some c →
      ∃ k, (k, c) ∈ m ∧ containAccept titleKey k) ∧
    ((∃ p, p ∈ m ∧ containAccept titleKey p.1) →
      (findMatchingCategory titleKey m).isSome = true) ∧
    (titleKey.length < 4 → findMatchingCategory titleKey m = none) := by
  have hdef : findMatchingCategory titleKey m = containLoop titleKey m := by
    simp [findMatchingCategory, hnoexact]
  refine ⟨hdef, ?_, ?_, ?_⟩
  · intro c hc
    exact containLoop_sound (hdef ▸ hc)
  · intro hex
    rw [hdef]; exact containLoop_complete hex
  · intro hshort
    rw [hdef]
    by_contra hne
    obtain ⟨c, hc⟩ := Option.ne_none_iff_exists'.mp hne
    obtain ⟨k, -, hk4, hdir⟩ := containLoop_sound hc
    rcases hdir with hcon | ⟨h5, -⟩
    · have := strContains_length_le hcon
      omega
    · omega

/-- Witness for C8 at a concrete input: title key
"tescostores1234" with stored mapping ("tesco", "groceries") has no
exact match, and the stored-key-in-title direction fires. -/
theorem C8_fuzzy_containment_witness :
    (findMatchingCategory "tescostores1234" [("tesco", "groceries")]).isSome
      = true :=
  (C8_fuzzy_containment "tescostores1234" [("tesco", "groceries")]
      (by decide)).2.2.1
    ⟨("tesco", "groceries"), by decide, by decide, Or.inl (by decide)⟩

/-- Claim C6: `restoreBalancesFromSnapshot` sets `balance :=
previousBalance` and clears `previousBalance`, `previousBalanceTimestamp`
and `importBatchId` on every balance document of the batch with a non-null
`previousBalance`; it returns `true` exactly when at least one document
was restored; when no balance document matches the batch it is a no-op
returning `false`; documents that do not match, or match with a null
snapshot, are unchanged. -/
theorem C6_restore_balances (docs : List BalanceDoc) (uid batchId : String)
    (now : Nat) :
    ((restoreBalancesFromSnapshot docs uid batchId now).2 = true ↔
      ∃ d ∈ docs, balMatches uid batchId d = true ∧
        d.previousBalance.isSome = true) ∧
    ((∀ d ∈ docs, balMatches uid batchId d = false) →
      restoreBalancesFromSnapshot docs uid batchId now = (docs, false)) ∧
    (∀ d ∈ docs, balMatches uid batchId d = true →
      ∀ p, d.previousBalance = some p →
        { userId := d.userId, accountKey := d.accountKey, balance := p,
          lastUpdated := now, previousBalance := none,
          previousBalanceTimestamp := none, importBatchId := none }
          ∈ (restoreBalancesFromSnapshot docs uid batchId now).1) ∧
    (∀ d ∈ docs,
      (balMatches uid batchId d = false ∨ d.previousBalance = none) →
        d ∈ (restoreBalancesFromSnapshot docs uid batchId now).1) := by
  by_cases hemp : docs.filter (balMatches uid batchId) = []
  · have hnone : ∀ d ∈ docs, ¬(balMatches uid batchId d = true) :=
      List.filter_eq_nil_iff.mp hemp
    have hres : restoreBalancesFromSnapshot docs uid batchId now
        = (docs, false) := by
      simp [restoreBalancesFromSnapshot, hemp]
    refine ⟨?_, fun _ => hres, ?_, ?_⟩
    · rw [hres]
      constructor
      · intro h; simp at h
      · rintro ⟨d, hd, hm, -⟩
        exact absurd hm (hnone d hd)
    · intro d hd hm
      exact absurd hm (hnone d hd)
    · intro d hd _
      rw [hres]; exact hd
  · have hres : restoreBalancesFromSnapshot docs uid batchId now
        = (docs.map (fun d =>
            if balMatches uid batchId d then restoreDoc now d else d),
           decide (0 < ((docs.filter (balMatches uid batchId)).filter
             (fun d => d.previousBalance.isSome)).length)) := by
      simp [restoreBalancesFromSnapshot, hemp]
    refine ⟨?_, ?_, ?_, ?_⟩
    · rw [hres]
      simp only [decide_eq_true_eq, List.length_pos]
      constructor
      · intro h
        obtain ⟨d, hd⟩ := List.exists_mem_of_ne_nil _ h
        obtain ⟨hd1, hd2⟩ := List.mem_filter.mp hd
        obtain ⟨hd3, hd4⟩ := List.mem_filter.mp hd1
        exact ⟨d, hd3, hd4, hd2⟩
      · rintro ⟨d, hd, hm, hp⟩
        intro hnil
        have : d ∈ ((docs.filter (balMatches uid batchId)).filter
            (fun d => d.previousBalance.isSome)) :=
          List.mem_filter.mpr ⟨List.mem_filter.mpr ⟨hd, hm⟩, hp⟩
        rw [hnil] at this
        simp at this
    · intro hall
      exact absurd (List.filter_eq_nil_iff.mpr
        (fun d hd => by simp [hall d hd])) hemp
    · intro d hd hm p hp
      rw [hres]
      refine List.mem_map.mpr ⟨d, hd, ?_⟩
      rw [if_pos hm]
      simp [restoreDoc, hp]
    · intro d hd hcase
      rw [hres]
      refine List.mem_map.mpr ⟨d, hd, ?_⟩
      rcases hcase with hm | hp
      · rw [if_neg (by simp [hm])]
      · by_cases hm : balMatches uid batchId d = true
        · rw [if_pos hm]; simp [restoreDoc, hp]
        · rw [if_neg hm]

/-- Witness for C6 at a concrete input: one matching document with
snapshot 40 and one unrelated document; the matching one is restored to
balance 40 with cleared snapshot fields, and the call reports `true`. -/
theorem C6_restore_balances_witness :
    ({ userId := "u1", accountKey := "k1", balance := 40,
       lastUpdated := 99, previousBalance := none,
       previousBalanceTimestamp := none,
       importBatchId := none : BalanceDoc }
        ∈ (restoreBalancesFromSnapshot
            [{ userId := "u1", accountKey := "k1", balance := 70,
               lastUpdated := 5, previousBalance := some 40,
               previousBalanceTimestamp := some 4,
               importBatchId := some "b1" },
             { userId := "u2", accountKey := "k2", balance := 10,
               lastUpdated := 6, previousBalance := none,
               previousBalanceTimestamp := none,
               importBatchId := none }] "u1" "b1" 99).1) ∧
    (restoreBalancesFromSnapshot
        [{ userId := "u1", accountKey := "k1", balance := 70,
           lastUpdated := 5, previousBalance := some 40,
           previousBalanceTimestamp := some 4,
           importBatchId := some "b1" },
         { userId := "u2", accountKey := "k2", balance := 10,
           lastUpdated := 6, previousBalance := none,
           previousBalanceTimestamp := none,
           importBatchId := none }] "u1" "b1" 99).2 = true := by
  have h := C6_restore_balances
    [{ userId := "u1", accountKey := "k1", balance := 70,
       lastUpdated := 5, previousBalance := some 40,
       previousBalanceTimestamp := some 4, importBatchId := some "b1" },
     { userId := "u2", accountKey := "k2", balance := 10,
       lastUpdated := 6, previousBalance := none,
       previousBalanceTimestamp := none, importBatchId := none }]
    "u1" "b1" 99
  refine ⟨?_, ?_⟩
  · exact h.2.2.1
      { userId := "u1", accountKey := "k1", balance := 70, lastUpdated := 5,
        previousBalance := some 40, previousBalanceTimestamp := some 4,
        importBatchId := some "b1" }
      (List.mem_cons_self _ _) (by decide) 40 rfl
  · exact h.1.mpr
      ⟨{ userId := "u1", accountKey := "k1", balance := 70, lastUpdated := 5,
         previousBalance := some 40, previousBalanceTimestamp := some 4,
         importBatchId := some "b1" },
       List.mem_cons_self _ _, by decide, rfl⟩

/-- Claim C9: in `startDeletingTransactions`, a per-document delete that
fails with a 404 / "could not be found" error is counted as a successful
deletion; a 429 / rate-limit error triggers exactly one retry of that
single document after a 10-second wait; if the retry also fails the
document contributes nothing to the count, is only logged, and the loop
continues with the remaining documents. -/
theorem C9_delete_error_handling (env : DeleteEnv) (d : String)
    (rest : List String) :
    (is404 (env.firstTry d) = true →
      deleteDocsLoop env (d :: rest)
        = (1 + (deleteDocsLoop env rest).1,
           DelEvent.callDelete d :: (deleteDocsLoop env rest).2)) ∧
    (is404 (env.firstTry d) = false → isRateLimit (env.firstTry d) = true →
      (deleteDocsLoop env (d :: rest)).2
        = DelEvent.callDelete d :: DelEvent.wait 10000
            :: DelEvent.callDelete d :: (deleteDocsLoop env rest).2 ∧
      (deleteDocsLoop env (d :: rest)).1
        = (if env.retryTry d = DelCallResult.ok then 1 else 0)
            + (deleteDocsLoop env rest).1) := by
  constructor
  · intro h404
    rcases hf : env.firstTry d with _ | ⟨c, t, m⟩
    · rw [hf] at h404; simp [is404] at h404
    · rw [hf] at h404
      simp [deleteDocsLoop, deleteOneDoc, hf, h404]
  · intro h404 hrate
    rcases hf : env.firstTry d with _ | ⟨c, t, m⟩
    · rw [hf] at hrate; simp [isRateLimit] at hrate
    · rw [hf] at h404 hrate
      rcases hr : env.retryTry d with _ | ⟨c', t', m'⟩ <;>
        simp [deleteDocsLoop, deleteOneDoc, hf, h404, hrate, hr]

/-- Witness for C9 at a concrete input: document "a" is already gone
(404, counted); document "b" rate-limits twice (one 10 s retry, then
logged); the loop still processes the whole list and reports 1 deletion. -/
theorem C9_delete_error_handling_witness :
    deleteDocsLoop delEnvExample ["a", "b"]
      = (1, [DelEvent.callDelete "a", DelEvent.callDelete "b",
             DelEvent.wait 10000, DelEvent.callDelete "b"]) := by
  have h1 := (C9_delete_error_handling delEnvExample "a" ["b"]).1
    (by decide)
  have h2 := (C9_delete_error_handling delEnvExample "b" []).2
    (by decide) (by decide)
  rw [h1, h2.1]
  decide

/-- Induction principle matching the two-items-per-step recursion of the
batch loop. -/
theorem list_twoStep_induction {α : Type} {motive : List α → Prop}
    (h0 : motive []) (h1 : ∀ a, motive [a])
    (h2 : ∀ a b rest, motive rest → motive (a :: b :: rest)) :
    ∀ l, motive l
  | [] => h0
  | [a] => h1 a
  | a :: b :: rest => h2 a b rest (list_twoStep_induction h0 h1 h2 rest)

/-- With no cancellation, the batch loop attempts every transaction and
its successful indices and error messages coincide with the per-item
reference recursions. -/
theorem bulkGo_none_spec {σ : Type} (upload : String → UpOutcome)
    (onB : List Nat → σ → σ) :
    ∀ (txs : List QTx) (i t : Nat) (s : σ),
      (bulkGo upload none onB txs i t s).successfulIndices
          = specSucc upload txs i ∧
      (bulkGo upload none onB txs i t s).errors = specErrs upload txs ∧
      (bulkGo upload none onB txs i t s).uploads = txs.map QTx.id := by
  refine list_twoStep_induction ?_ ?_ ?_
  · intro i t s
    simp [bulkGo, specSucc, specErrs]
  · intro a i t s
    rcases h : upload a.id with _ | m
    · simp [bulkGo, cancelFlag, processItem, specSucc, specErrs,
        uploadSuccessB, itemErrs, h]
    · by_cases hd : isDuplicateMsg m = true
      · simp [bulkGo, cancelFlag, processItem, specSucc, specErrs,
          uploadSuccessB, itemErrs, h, hd]
      · simp [bulkGo, cancelFlag, processItem, specSucc, specErrs,
          uploadSuccessB, itemErrs, h, hd]
  · intro a b rest ih i t s
    rcases h1 : upload a.id with _ | m1 <;>
      rcases h2 : upload b.id with _ | m2 <;>
      [skip; by_cases hd2 : isDuplicateMsg m2 = true;
       by_cases hd1 : isDuplicateMsg m1 = true;
       (by_cases hd1 : isDuplicateMsg m1 = true <;>
         by_cases hd2 : isDuplicateMsg m2 = true)] <;>
      simp_all [bulkGo, cancelFlag, processItem, specSucc, specErrs,
        uploadSuccessB, itemErrs]

/-- A successful upload outcome at position `j` puts absolute index
`i + j` into the reference success list. -/
theorem specSucc_mem (upload : String → UpOutcome) :
    ∀ (txs : List QTx) (i j : Nat) (hj : j < txs.length),
      uploadSuccessB (upload (txs.get ⟨j, hj⟩).id) = true →
        (i + j) ∈ specSucc upload txs i := by
  intro txs
  induction txs with
  | nil => intro i j hj; simp at hj
  | cons a rest ih =>
    intro i j hj hsucc
    cases j with
    | zero =>
      simp only [List.get] at hsucc
      simp [specSucc, hsucc]
    | succ j' =>
      have hj' : j' < rest.length := by
        simpa [Nat.succ_lt_succ_iff] using hj
      have := ih (i + 1) j' hj' (by simpa using hsucc)
      simp only [specSucc, List.mem_append]
      right
      have : i + 1 + j' = i + (j' + 1) := by omega
      rw [← this]
      exact ih (i + 1) j' hj' (by simpa using hsucc)

/-- The reference success list has one entry per success-class outcome. -/
theorem specSucc_length (upload : String → UpOutcome) :
    ∀ (txs : List QTx) (i : Nat),
      (specSucc upload txs i).length
        = (txs.filter (fun tx => uploadSuccessB (upload tx.id))).length := by
  intro txs
  induction txs with
  | nil => intro i; simp [specSucc]
  | cons a rest ih =>
    intro i
    by_cases h : uploadSuccessB (upload a.id) = true
    · simp [specSucc, List.filter_cons, h, ih]
    · have h' : uploadSuccessB (upload a.id) = false := by
        simpa using h
      simp [specSucc, List.filter_cons, h', ih]

/-- The reference error list has one entry per failure-class outcome. -/
theorem specErrs_length (upload : String → UpOutcome) :
    ∀ txs : List QTx,
      (specErrs upload txs).length
        = (txs.filter (fun tx => !uploadSuccessB (upload tx.id))).length := by
  intro txs
  induction txs with
  | nil => simp [specErrs]
  | cons a rest ih =>
    rcases h : upload a.id with _ | m
    · simp [specErrs, List.filter_cons, h, uploadSuccessB, ih]
    · by_cases hd : isDuplicateMsg m = true
      · simp [specErrs, List.filter_cons, h, uploadSuccessB, hd, ih]
      · simp [specErrs, List.filter_cons, h, uploadSuccessB, hd, ih]

/-- Claim C4: in `createBulkTransactions`, a transaction whose remote
create fails with a duplicate-document-id error (message containing
"already exists") is counted as successfully created: its index lands in
`successfulIndices`, `created` counts all success-class outcomes
(including duplicates), and `failed` counts only the non-duplicate
errors, so re-running sync after a partial previous run is idempotent. -/
theorem C4_duplicate_create_is_success {σ : Type}
    (upload : String → UpOutcome) (onB : List Nat → σ → σ)
    (txs : List QTx) (t0 : Nat) (s0 : σ) (j : Nat) (hj : j < txs.length)
    (m : String)
    (hout : upload (txs.get ⟨j, hj⟩).id = UpOutcome.err m)
    (hdup : strContains m "already exists" = true) :
    j ∈ ((createBulkTransactions upload none onB txs t0 s0).1).successfulIndices ∧
    ((createBulkTransactions upload none onB txs t0 s0).1).created
      = (txs.filter (fun tx => uploadSuccessB (upload tx.id))).length ∧
    ((createBulkTransactions upload none onB txs t0 s0).1).failed
      = (txs.filter (fun tx => !uploadSuccessB (upload tx.id))).length ∧
    uploadSuccessB (upload (txs.get ⟨j, hj⟩).id) = true := by
  have hspec := bulkGo_none_spec upload onB txs 0 t0 s0
  have hsucc : uploadSuccessB (upload (txs.get ⟨j, hj⟩).id) = true := by
    rw [hout]
    simp [uploadSuccessB, isDuplicateMsg, hdup]
  refine ⟨?_, ?_, ?_, hsucc⟩
  · have hmem := specSucc_mem upload txs 0 j hj hsucc
    simpa [createBulkTransactions, hspec.1] using hmem
  · simp [createBulkTransactions, hspec.1, specSucc_length]
  · simp [createBulkTransactions, hspec.2.1, specErrs_length]

/-- Witness for C4 at a concrete input: a single queued transaction whose
create throws "already exists" yields created = 1, failed = 0, index 0
successful. -/
theorem C4_duplicate_create_is_success_witness :
    0 ∈ ((createBulkTransactions (fun _ => UpOutcome.err "already exists")
        none (fun _ (s : Unit) => s)
        [{ id := "t1", userId := "u", syncStatus := SyncSt.pending,
           attempts := 0 }] 0 ()).1).successfulIndices ∧
    ((createBulkTransactions (fun _ => UpOutcome.err "already exists")
        none (fun _ (s : Unit) => s)
        [{ id := "t1", userId := "u", syncStatus := SyncSt.pending,
           attempts := 0 }] 0 ()).1).created = 1 ∧
    ((createBulkTransactions (fun _ => UpOutcome.err "already exists")
        none (fun _ (s : Unit) => s)
        [{ id := "t1", userId := "u", syncStatus := SyncSt.pending,
           attempts := 0 }] 0 ()).1).failed = 0 := by
  have h := C4_duplicate_create_is_success
    (fun _ => UpOutcome.err "already exists") (fun _ (s : Unit) => s)
    [{ id := "t1", userId := "u", syncStatus := SyncSt.pending,
       attempts := 0 }] 0 () 0 (by decide) "already exists" rfl (by decide)
  exact ⟨h.1, h.2.1.trans (by decide), h.2.2.1.trans (by decide)⟩

/-- Claim C2: if at the start of `startSyncingTransactions` a delete
operation exists whose status is not `completed`, the function performs
no uploads (empty attempted-create trace), leaves the queue untouched,
and returns `{succeeded: 0, failed: 0}`. -/
theorem C2_sync_aborts_on_delete (env : SyncEnv) (queue0 : List QTx)
    (s : DelSt) (h0 : env.delete0 = some s) (hne : s ≠ DelSt.completed) :
    startSyncingTransactions env queue0 = ((0, 0), queue0, []) := by
  have hblock : delBlocksStart env.delete0 = true := by
    rw [h0]
    simpa [delBlocksStart] using hne
  simp [startSyncingTransactions, hblock]

/-- Witness for C2 at a concrete input: a pending delete operation makes
the run return 0/0 without touching the five-item queue or attempting any
upload. -/
theorem C2_sync_aborts_on_delete_witness :
    startSyncingTransactions
      { delete0 := some DelSt.pending, deleteAtUser := fun _ => none,
        cancelAt := none, upload := fun _ => UpOutcome.ok,
        userThrows := fun _ => none } queueFive
      = ((0, 0), queueFive, []) :=
  C2_sync_aborts_on_delete
    { delete0 := some DelSt.pending, deleteAtUser := fun _ => none,
      cancelAt := none, upload := fun _ => UpOutcome.ok,
      userThrows := fun _ => none } queueFive DelSt.pending rfl (by decide)

/-- Claim C3 (code bug): the specified scenario — five pending items of
one user, every upload succeeding, a delete operation turning active
after the first batch of 2 completes — reverts the three in-flight
`syncing` items to `pending` and durably marks the two uploaded items
`completed`, but returns `{succeeded: 0, failed: 0}` rather than the
`{succeeded: 2, failed: 0}` the specification states: the running total
is only updated after the cancellation check, so the cancelled user's
already-committed batch successes are dropped from the returned count. -/
theorem C3_cancel_midrun_count_dropped :
    startSyncingTransactions envCancelAfterBatch1 queueFive
      = ((0, 0),
         [{ id := "t1", userId := "u", syncStatus := SyncSt.completed,
            attempts := 1 },
          { id := "t2", userId := "u", syncStatus := SyncSt.completed,
            attempts := 1 },
          { id := "t3", userId := "u", syncStatus := SyncSt.pending,
            attempts := 0 },
          { id := "t4", userId := "u", syncStatus := SyncSt.pending,
            attempts := 0 },
          { id := "t5", userId := "u", syncStatus := SyncSt.pending,
            attempts := 0 }],
         ["t1", "t2"]) := by
  decide

/-- Counterexample for C5 as literally stated: a non-network error on a
user batch whose transaction has `attempts = 2`, still below the retry
cap of 3, is moved to `failed` (with `attempts = 3`), not re-queued as
`pending`. -/
theorem C5_cap_boundary_counterexample :
    isNetworkError "boom" = false ∧
    (2 : Nat) < MAX_RETRY_ATTEMPTS ∧
    startSyncingTransactions
      { delete0 := none, deleteAtUser := fun _ => none, cancelAt := none,
        upload := fun _ => UpOutcome.ok, userThrows := fun _ => some "boom" }
      [{ id := "t1", userId := "u", syncStatus := SyncSt.pending,
         attempts := 2 }]
      = ((0, 1),
         [{ id := "t1", userId := "u", syncStatus := SyncSt.failed,
            attempts := 3, error := some "boom" }],
         []) := by
  decide

/-- Claim C5 as amended: when a per-user upload batch throws inside
`startSyncingTransactions`, each queue entry belonging to that user's
batch gets `attempts` incremented and becomes `pending` exactly when the
error is network-class or the incremented attempt count is still below
`MAX_RETRY_ATTEMPTS - 1 + 1` (equivalently the pre-increment count is
below `MAX_RETRY_ATTEMPTS - 1`), and `failed` otherwise; the cap
`MAX_RETRY_ATTEMPTS` is 3. -/
theorem C5_requeue_on_user_batch_error (queue utxs : List QTx)
    (msg : String) (t : QTx) (ht : t ∈ queue)
    (hin : utxs.any (fun ut => ut.id == t.id) = true) :
    MAX_RETRY_ATTEMPTS = 3 ∧
    requeueTx utxs msg t ∈ requeueAfterError queue utxs msg ∧
    (requeueTx utxs msg t).attempts = t.attempts + 1 ∧
    (requeueTx utxs msg t).error = some msg ∧
    ((requeueTx utxs msg t).syncStatus = SyncSt.pending ↔
      (isNetworkError msg = true ∨ t.attempts + 1 < MAX_RETRY_ATTEMPTS)) ∧
    ((requeueTx utxs msg t).syncStatus = SyncSt.pending ∨
      (requeueTx utxs msg t).syncStatus = SyncSt.failed) := by
  refine ⟨rfl, List.mem_map_of_mem _ ht, ?_, ?_, ?_, ?_⟩
  · rw [requeueTx, if_pos hin]
    by_cases hc : (isNetworkError msg ||
        decide (t.attempts < MAX_RETRY_ATTEMPTS - 1)) = true
    · rw [if_pos hc]
    · rw [if_neg hc]
  · rw [requeueTx, if_pos hin]
    by_cases hc : (isNetworkError msg ||
        decide (t.attempts < MAX_RETRY_ATTEMPTS - 1)) = true
    · rw [if_pos hc]
    · rw [if_neg hc]
  · rw [requeueTx, if_pos hin]
    by_cases hc : (isNetworkError msg ||
        decide (t.attempts < MAX_RETRY_ATTEMPTS - 1)) = true
    · rw [if_pos hc]
      simp only [Bool.or_eq_true, decide_eq_true_eq] at hc
      simp only [true_iff]
      rcases hc with hc | hc
      · exact Or.inl hc
      · right; unfold MAX_RETRY_ATTEMPTS at hc ⊢; omega
    · rw [if_neg hc]
      simp only [Bool.or_eq_true, decide_eq_true_eq, not_or] at hc
      constructor
      · intro h; exact absurd h (by simp)
      · rintro (h | h)
        · exact absurd h (by simp [hc.1])
        · exfalso
          have := hc.2
          unfold MAX_RETRY_ATTEMPTS at h this
          omega
  · rw [requeueTx, if_pos hin]
    by_cases hc : (isNetworkError msg ||
        decide (t.attempts < MAX_RETRY_ATTEMPTS - 1)) = true
    · rw [if_pos hc]; left; rfl
    · rw [if_neg hc]; right; rfl

/-- Witness for the amended C5 at a concrete input: a first-attempt
transaction hit by a non-network error goes back to `pending` with
`attempts = 1`. -/
theorem C5_requeue_on_user_batch_error_witness :
    (requeueTx
        [{ id := "t1", userId := "u", syncStatus := SyncSt.syncing,
           attempts := 0 }] "boom"
        { id := "t1", userId := "u", syncStatus := SyncSt.syncing,
          attempts := 0 }).syncStatus = SyncSt.pending := by
  have h := C5_requeue_on_user_batch_error
    [{ id := "t1", userId := "u", syncStatus := SyncSt.syncing,
       attempts := 0 }]
    [{ id := "t1", userId := "u", syncStatus := SyncSt.syncing,
       attempts := 0 }] "boom"
    { id := "t1", userId := "u", syncStatus := SyncSt.syncing,
      attempts := 0 }
    (List.mem_cons_self _ _) (by decide)
  exact h.2.2.2.2.1.mpr (Or.inr (by decide))

theorem getEntry_setEntry_same {β : Type} (m : List (String × β))
    (k : String) (v : β) : getEntry (setEntry m k v) k = some v := by
  induction m with
  | nil => simp [setEntry, getEntry]
  | cons p rest ih =>
    obtain ⟨k0, v0⟩ := p
    by_cases h : k0 = k
    · simp [setEntry, getEntry, h]
    · simp [setEntry, getEntry, h, ih]

theorem getEntry_setEntry_ne {β : Type} (m : List (String × β))
    (k k' : String) (v : β) (hne : k' ≠ k) :
    getEntry (setEntry m k v) k' = getEntry m k' := by
  have hne' : ¬(k = k') := fun h => hne h.symm
  induction m with
  | nil => simp [setEntry, getEntry, hne']
  | cons p rest ih =>
    obtain ⟨k0, v0⟩ := p
    by_cases h : k0 = k
    · subst h
      simp [setEntry, getEntry, hne']
    · by_cases h' : k0 = k'
      · simp [setEntry, getEntry, h, h', hne]
      · simp [setEntry, getEntry, h, h', ih]

theorem getEntry_eq_none_of_not_mem_keys {β : Type} (m : List (String × β))
    (k : String) (h : k ∉ m.map Prod.fst) : getEntry m k = none := by
  induction m with
  | nil => rfl
  | cons p rest ih =>
    obtain ⟨k0, v0⟩ := p
    simp only [List.map_cons, List.mem_cons, not_or] at h
    have h1 : ¬(k0 = k) := fun hh => h.1 hh.symm
    simp [getEntry, h1, ih h.2]

theorem mem_keys_of_getEntry_some {β : Type} (m : List (String × β))
    (k : String) (v : β) (h : getEntry m k = some v) :
    k ∈ m.map Prod.fst := by
  induction m with
  | nil => simp [getEntry] at h
  | cons p rest ih =>
    obtain ⟨k0, v0⟩ := p
    by_cases h0 : k0 = k
    · simp [h0]
    · simp only [getEntry, if_neg h0] at h
      simp [ih h]

theorem setEntry_keys_of_mem {β : Type} (m : List (String × β))
    (k : String) (v v0 : β) (h : getEntry m k = some v0) :
    (setEntry m k v).map Prod.fst = m.map Prod.fst := by
  induction m with
  | nil => simp [getEntry] at h
  | cons p rest ih =>
    obtain ⟨k1, v1⟩ := p
    by_cases h1 : k1 = k
    · simp [setEntry, h1]
    · simp only [getEntry, if_neg h1] at h
      simp [setEntry, h1, ih h]

theorem firstPassStep_not_parseable (m : List (String × (Int × Nat)))
    (r : PRow) (hb : balCents r.balance = none) :
    firstPassStep m r = m := by
  unfold firstPassStep
  split_ifs
  · rfl
  · rfl
  · rw [hb]

theorem firstPassStep_not_completed (m : List (String × (Int × Nat)))
    (r : PRow) (hc : isCompletedState r.state = false) :
    firstPassStep m r = m := by
  unfold firstPassStep
  split_ifs with h1 h2
  · rfl
  · rfl
  · exfalso
    simp [hc] at h2

theorem firstPassStep_eligible (m : List (String × (Int × Nat)))
    (r : PRow) (b : Int) (hb : balCents r.balance = some b)
    (hcomp : isCompletedState r.state = true) :
    firstPassStep m r =
      match getEntry m r.key with
      | none => setEntry m r.key (b, r.ts)
      | some (b0, t0) =>
        if r.ts > t0 then setEntry m r.key (b, r.ts) else m := by
  have hmiss : (r.balance == BalField.missing) = false := by
    cases hbal : r.balance <;> simp_all [balCents]
  unfold firstPassStep
  rw [if_neg (by simp [hmiss]), if_neg (by simp [hcomp]), hb]

/-- The first pass projected to one account key folds `bestStep` over the
balance/timestamp pairs of that key's eligible rows, in row order. -/
theorem firstPass_proj (k : String) :
    ∀ (rows : List PRow) (m : List (String × (Int × Nat))),
      getEntry (rows.foldl firstPassStep m) k
        = ((rows.filter (fun r => r.key == k && firstPassEligible r)).map
            (fun r => ((balCents r.balance).getD 0, r.ts))).foldl bestStep
            (getEntry m k) := by
  intro rows
  induction rows with
  | nil => intro m; simp
  | cons r rest ih =>
    intro m
    rw [List.foldl_cons, ih]
    rcases hb : balCents r.balance with _ | b
    · have hsel : (r.key == k && firstPassEligible r) = false := by
        simp [firstPassEligible, hb]
      have hfil : List.filter
          (fun r => r.key == k && firstPassEligible r) (r :: rest)
          = List.filter (fun r => r.key == k && firstPassEligible r) rest := by
        simp [List.filter_cons, hsel]
      rw [firstPassStep_not_parseable m r hb, hfil]
    · by_cases hcomp : isCompletedState r.state = true
      · have hmiss : (r.balance != BalField.missing) = true := by
          cases hbal : r.balance <;> simp_all [balCents]
        have helig : firstPassEligible r = true := by
          simp [firstPassEligible, hmiss, hcomp, hb]
        by_cases hkey : r.key = k
        · have hsel : (r.key == k && firstPassEligible r) = true := by
            simp [hkey, helig]
          have hfil : List.filter
              (fun r => r.key == k && firstPassEligible r) (r :: rest)
              = r :: List.filter
                  (fun r => r.key == k && firstPassEligible r) rest := by
            simp [List.filter_cons, hsel]
          rw [hfil]
          simp only [List.map_cons, List.foldl_cons]
          rw [firstPassStep_eligible m r b hb hcomp, hkey]
          simp only [hb, Option.getD_some]
          have hx : getEntry (match getEntry m k with
              | none => setEntry m k (b, r.ts)
              | some (b0, t0) =>
                if r.ts > t0 then setEntry m k (b, r.ts) else m) k
              = bestStep (getEntry m k) (b, r.ts) := by
            rcases hget : getEntry m k with _ | ⟨b0, t0⟩
            · exact getEntry_setEntry_same m k (b, r.ts)
            · show getEntry
                  (if r.ts > t0 then setEntry m k (b, r.ts) else m) k
                  = if r.ts > t0 then some (b, r.ts) else some (b0, t0)
              by_cases ht : r.ts > t0
              · rw [if_pos ht, if_pos ht]
                exact getEntry_setEntry_same m k (b, r.ts)
              · rw [if_neg ht, if_neg ht]
                exact hget
          rw [hx]
        · have hsel : (r.key == k && firstPassEligible r) = false := by
            simp [hkey]
          have hfil : List.filter
              (fun r => r.key == k && firstPassEligible r) (r :: rest)
              = List.filter
                  (fun r => r.key == k && firstPassEligible r) rest := by
            simp [List.filter_cons, hsel]
          have hstep : getEntry (firstPassStep m r) k = getEntry m k := by
            rw [firstPassStep_eligible m r b hb hcomp]
            rcases hget : getEntry m r.key with _ | ⟨b0, t0⟩
            · exact getEntry_setEntry_ne m r.key k (b, r.ts)
                (fun h => hkey h.symm)
            · show getEntry
                  (if r.ts > t0 then setEntry m r.key (b, r.ts) else m) k
                  = getEntry m k
              by_cases ht : r.ts > t0
              · rw [if_pos ht]
                exact getEntry_setEntry_ne m r.key k (b, r.ts)
                  (fun h => hkey h.symm)
              · rw [if_neg ht]
          rw [hfil, hstep]
      · have hcomp' : isCompletedState r.state = false := by
          simpa using hcomp
        have hsel : (r.key == k && firstPassEligible r) = false := by
          simp [firstPassEligible, hcomp']
        have hfil : List.filter
            (fun r => r.key == k && firstPassEligible r) (r :: rest)
            = List.filter
                (fun r => r.key == k && firstPassEligible r) rest := by
          simp [List.filter_cons, hsel]
        rw [firstPassStep_not_completed m r hcomp', hfil]

/-- Folding `bestStep` over a list whose elements are either `(b, T)` or
strictly earlier yields `(b, T)` once it occurs, regardless of where. -/
theorem bestStep_fold_dominant (b : Int) (T : Nat) :
    ∀ l : List (Int × Nat),
      (∀ x ∈ l, x = (b, T) ∨ x.2 < T) →
      ∀ acc : Option (Int × Nat),
        (acc = some (b, T) → l.foldl bestStep acc = some (b, T)) ∧
        ((acc = none ∨ ∃ p, acc = some p ∧ p.2 < T) → (b, T) ∈ l →
          l.foldl bestStep acc = some (b, T)) := by
  intro l
  induction l with
  | nil =>
    intro _ acc
    refine ⟨fun h => by simpa using h, fun _ hmem => by simp at hmem⟩
  | cons x rest ih =>
    intro hl acc
    have hx := hl x (List.mem_cons_self x rest)
    have hrest : ∀ y ∈ rest, y = (b, T) ∨ y.2 < T :=
      fun y hy => hl y (List.mem_cons_of_mem x hy)
    constructor
    · intro hacc
      subst hacc
      rw [List.foldl_cons]
      have hstep : bestStep (some (b, T)) x = some (b, T) := by
        rcases hx with rfl | hlt
        · simp [bestStep]
        · obtain ⟨x1, x2⟩ := x
          simp only at hlt
          simp [bestStep, Nat.not_lt.mpr (le_of_lt hlt)]
      rw [hstep]
      exact (ih hrest (some (b, T))).1 rfl
    · intro hacc hmem
      rw [List.foldl_cons]
      rcases List.mem_cons.mp hmem with heq | hmem'
      · obtain rfl := heq.symm
        have hstep : bestStep acc (b, T) = some (b, T) := by
          rcases hacc with rfl | ⟨p, rfl, hp⟩
          · rfl
          · obtain ⟨p1, p2⟩ := p
            simp only at hp
            simp [bestStep, hp]
        rw [hstep]
        exact (ih hrest (some (b, T))).1 rfl
      · have hacc' : bestStep acc x = some (b, T) ∨
            (bestStep acc x = none ∨
              ∃ p, bestStep acc x = some p ∧ p.2 < T) := by
          rcases hx with rfl | hlt
          · left
            rcases hacc with rfl | ⟨p, rfl, hp⟩
            · rfl
            · obtain ⟨p1, p2⟩ := p
              simp only at hp
              simp [bestStep, hp]
          · right
            rcases hacc with rfl | ⟨p, rfl, hp⟩
            · exact Or.inr ⟨x, rfl, hlt⟩
            · obtain ⟨p1, p2⟩ := p
              obtain ⟨x1, x2⟩ := x
              simp only at hp hlt
              by_cases hgt : x2 > p2
              · exact Or.inr ⟨(x1, x2), by simp [bestStep, hgt], hlt⟩
              · exact Or.inr ⟨(p1, p2), by simp [bestStep, hgt], hp⟩
        rcases hacc' with h1 | h2
        · exact (ih hrest (bestStep acc x)).1 h1
        · exact (ih hrest (bestStep acc x)).2 h2 hmem'

/-- With a strictly-latest eligible row `r` for its key, the first pass
keeps exactly `r`'s balance and timestamp. -/
theorem firstPass_latest (rows : List PRow) (r : PRow) (b : Int)
    (hmem : r ∈ rows) (hb : balCents r.balance = some b)
    (hcomp : isCompletedState r.state = true)
    (hlatest : ∀ x ∈ rows, x.key = r.key → firstPassEligible x = true →
      x ≠ r → x.ts < r.ts) :
    getEntry (firstPass rows) r.key = some (b, r.ts) := by
  have helig : firstPassEligible r = true := by
    cases hbal : r.balance <;>
      simp_all [balCents, firstPassEligible, isCompletedState]
  rw [firstPass, firstPass_proj r.key rows []]
  have hall : ∀ x ∈ (rows.filter
        (fun x => x.key == r.key && firstPassEligible x)).map
        (fun x => ((balCents x.balance).getD 0, x.ts)),
      x = (b, r.ts) ∨ x.2 < r.ts := by
    intro x hx
    obtain ⟨y, hy, rfl⟩ := List.mem_map.mp hx
    obtain ⟨hy1, hy2⟩ := List.mem_filter.mp hy
    obtain ⟨hykey, hyelig⟩ := Bool.and_eq_true_iff.mp hy2
    by_cases hyr : y = r
    · subst hyr
      left
      rw [hb]
      rfl
    · right
      exact hlatest y hy1 (by simpa using hykey) hyelig hyr
  have hmem' : (b, r.ts) ∈ (rows.filter
        (fun x => x.key == r.key && firstPassEligible x)).map
        (fun x => ((balCents x.balance).getD 0, x.ts)) := by
    refine List.mem_map.mpr ⟨r, List.mem_filter.mpr ⟨hmem, ?_⟩, ?_⟩
    · simp [helig]
    · rw [hb]
      rfl
  exact (bestStep_fold_dominant b r.ts _ hall (getEntry ([] : List (String × (Int × Nat))) r.key)).2 (Or.inl rfl) hmem'

/-- The second pass projected to one account key: an existing entry
grows by the pending total for that key; an entry appears exactly when
the key has some pending numeric amount. -/
theorem pending_proj (k : String) :
    ∀ (rows : List PRow) (m : List (String × Int)),
      getEntry (rows.foldl pendingStep m) k
        = optAdd (getEntry m k)
            ((rows.filter (fun x => x.key == k && isPendingState x.state)).filterMap
              PRow.amount) := by
  intro rows
  induction rows with
  | nil =>
    intro m
    rcases hget : getEntry m k with _ | c <;> simp [optAdd, hget]
  | cons r rest ih =>
    intro m
    rw [List.foldl_cons]
    by_cases hpend : isPendingState r.state = true
    · rcases ha : r.amount with _ | a
      · have hstep : pendingStep m r = m := by
          unfold pendingStep
          rw [if_neg (by simp [hpend]), ha]
        rw [hstep, ih]
        congr 1
        by_cases hkey : (r.key == k) = true
        · have hfil : List.filter
              (fun x => x.key == k && isPendingState x.state) (r :: rest)
              = r :: List.filter
                  (fun x => x.key == k && isPendingState x.state) rest := by
            simp [List.filter_cons, hkey, hpend]
          rw [hfil, List.filterMap_cons, ha]
        · have hsel : (r.key == k && isPendingState r.state) = false := by
            simp [Bool.not_eq_true] at hkey
            simp [hkey]
          simp [List.filter_cons, hsel]
      · by_cases hkey : (r.key == k) = true
        · have hkey' : r.key = k := by simpa using hkey
          have hstep : pendingStep m r
              = setEntry m k ((getEntry m k).getD 0 + a) := by
            unfold pendingStep
            rw [if_neg (by simp [hpend]), ha, hkey']
          have hfil : List.filter
              (fun x => x.key == k && isPendingState x.state) (r :: rest)
              = r :: List.filter
                  (fun x => x.key == k && isPendingState x.state) rest := by
            simp [List.filter_cons, hkey, hpend]
          rw [hstep, ih, hfil, List.filterMap_cons, ha,
            getEntry_setEntry_same]
          rcases hget : getEntry m k with _ | c
          · rcases hl : List.filterMap PRow.amount (List.filter
                (fun x => x.key == k && isPendingState x.state) rest) with
              _ | ⟨a1, l1⟩
            · simp [optAdd]
            · simp only [optAdd, List.sum_cons, Option.getD_none]
              congr 1
              omega
          · simp only [optAdd, List.sum_cons, Option.getD_some]
            congr 1
            omega
        · have hkey' : r.key ≠ k := by simpa using hkey
          have hstep : pendingStep m r
              = setEntry m r.key ((getEntry m r.key).getD 0 + a) := by
            unfold pendingStep
            rw [if_neg (by simp [hpend]), ha]
          have hsel : (r.key == k && isPendingState r.state) = false := by
            simp [hkey']
          have hfil : List.filter
              (fun x => x.key == k && isPendingState x.state) (r :: rest)
              = List.filter
                  (fun x => x.key == k && isPendingState x.state) rest := by
            simp [List.filter_cons, hsel]
          rw [hstep, ih, hfil,
            getEntry_setEntry_ne m r.key k _ (fun h => hkey' h.symm)]
    · have hpend' : isPendingState r.state = false := by simpa using hpend
      have hstep : pendingStep m r = m := by
        unfold pendingStep
        rw [if_pos (by simp [hpend'])]
      have hfil : List.filter
          (fun x => x.key == k && isPendingState x.state) (r :: rest)
          = List.filter
              (fun x => x.key == k && isPendingState x.state) rest := by
        simp [List.filter_cons, hpend']
      rw [hstep, ih, hfil]

theorem mem_keys_setEntry {β : Type} (m : List (String × β))
    (k x : String) (v : β)
    (h : x ∈ (setEntry m k v).map Prod.fst) :
    x = k ∨ x ∈ m.map Prod.fst := by
  induction m with
  | nil => simpa [setEntry] using h
  | cons p rest ih =>
    obtain ⟨k0, v0⟩ := p
    by_cases h0 : k0 = k
    · subst h0
      simpa [setEntry] using h
    · simp only [setEntry, if_neg h0, List.map_cons, List.mem_cons] at h
      rcases h with h | h
      · exact Or.inr (by simp [h])
      · rcases ih h with h' | h'
        · exact Or.inl h'
        · exact Or.inr (by simp [h'])

theorem setEntry_keys_nodup {β : Type} (m : List (String × β))
    (k : String) (v : β) (h : (m.map Prod.fst).Nodup) :
    ((setEntry m k v).map Prod.fst).Nodup := by
  induction m with
  | nil => simp [setEntry]
  | cons p rest ih =>
    obtain ⟨k0, v0⟩ := p
    simp only [List.map_cons, List.nodup_cons] at h
    by_cases h0 : k0 = k
    · subst h0
      rw [show setEntry ((k0, v0) :: rest) k0 v = (k0, v) :: rest from by
        simp [setEntry]]
      simp only [List.map_cons, List.nodup_cons]
      exact h
    · simp only [setEntry, if_neg h0, List.map_cons, List.nodup_cons]
      refine ⟨?_, ih h.2⟩
      intro hmem
      rcases mem_keys_setEntry rest k k0 v hmem with h' | h'
      · exact h0 h'
      · exact h.1 h'

theorem pendingAdjustments_keys_nodup (rows : List PRow) :
    ((pendingAdjustments rows).map Prod.fst).Nodup := by
  have hgen : ∀ (rs : List PRow) (m : List (String × Int)),
      (m.map Prod.fst).Nodup →
        ((rs.foldl pendingStep m).map Prod.fst).Nodup := by
    intro rs
    induction rs with
    | nil => intro m hm; simpa using hm
    | cons r rest ih =>
      intro m hm
      rw [List.foldl_cons]
      refine ih _ ?_
      unfold pendingStep
      split_ifs
      · exact hm
      · rcases r.amount with _ | a
        · exact hm
        · exact setEntry_keys_nodup m r.key _ hm
  exact hgen rows [] (by simp)

/-- `applyAdjustments` does not create or remove accounts. -/
theorem applyAdjustments_keys :
    ∀ (adj : List (String × Int)) (fp : List (String × (Int × Nat))),
      (applyAdjustments fp adj).map Prod.fst = fp.map Prod.fst := by
  intro adj
  induction adj with
  | nil => intro fp; rfl
  | cons p rest ih =>
    obtain ⟨k0, a0⟩ := p
    intro fp
    have hcons : applyAdjustments fp ((k0, a0) :: rest)
        = applyAdjustments
            (match getEntry fp k0 with
             | some (b, t) => setEntry fp k0 (b + a0, t)
             | none => fp) rest := by
      unfold applyAdjustments
      rw [List.foldl_cons]
    rw [hcons]
    rcases hget : getEntry fp k0 with _ | ⟨b, t⟩
    · exact ih fp
    · rw [ih]
      exact setEntry_keys_of_mem fp k0 (b + a0, t) (b, t) hget

theorem getEntry_ne_none_of_mem_keys {β : Type} (m : List (String × β))
    (k : String) (h : k ∈ m.map Prod.fst) : getEntry m k ≠ none := by
  induction m with
  | nil => simp at h
  | cons p rest ih =>
    obtain ⟨k0, v0⟩ := p
    by_cases h0 : k0 = k
    · simp [getEntry, h0]
    · simp only [List.map_cons, List.mem_cons] at h
      rcases h with h | h
      · exact absurd h.symm h0
      · simp only [getEntry, if_neg h0]
        exact ih h

/-- `applyAdjustments` projected to one key: an account with a
first-pass entry gains that key's summed adjustment (if any); an account
without one stays absent. -/
theorem applyAdjustments_getEntry :
    ∀ adj : List (String × Int), (adj.map Prod.fst).Nodup →
      ∀ (fp : List (String × (Int × Nat))) (k : String),
      getEntry (applyAdjustments fp adj) k
        = match getEntry fp k, getEntry adj k with
          | some (b, t), some a => some (b + a, t)
          | some (b, t), none => some (b, t)
          | none, _ => none := by
  intro adj
  induction adj with
  | nil =>
    intro _ fp k
    rcases hfp : getEntry fp k with _ | ⟨b, t⟩ <;>
      simp [applyAdjustments, getEntry, hfp]
  | cons p rest ih =>
    obtain ⟨k0, a0⟩ := p
    intro hnd fp k
    simp only [List.map_cons, List.nodup_cons] at hnd
    obtain ⟨hk0, hndrest⟩ := hnd
    have hcons : applyAdjustments fp ((k0, a0) :: rest)
        = applyAdjustments
            (match getEntry fp k0 with
             | some (b, t) => setEntry fp k0 (b + a0, t)
             | none => fp) rest := by
      unfold applyAdjustments
      rw [List.foldl_cons]
    rw [hcons]
    by_cases hk : k = k0
    · subst hk
      have hrest_none : getEntry rest k = none :=
        getEntry_eq_none_of_not_mem_keys rest k hk0
      have hadj : getEntry ((k, a0) :: rest) k = some a0 := by
        simp [getEntry]
      rcases Option.eq_none_or_eq_some (getEntry fp k) with hfp | ⟨⟨b, t⟩, hfp⟩
      · have hstep : (match getEntry fp k with
            | some (b, t) => setEntry fp k (b + a0, t)
            | none => fp) = fp := by rw [hfp]
        rw [hstep, ih hndrest fp k, hfp, hrest_none, hadj]
      · have hstep : (match getEntry fp k with
            | some (b, t) => setEntry fp k (b + a0, t)
            | none => fp) = setEntry fp k (b + a0, t) := by rw [hfp]
        rw [hstep, ih hndrest _ k, getEntry_setEntry_same, hrest_none,
          hfp, hadj]
    · have hadj : getEntry ((k0, a0) :: rest) k = getEntry rest k := by
        simp [getEntry, Ne.symm hk]
      rcases Option.eq_none_or_eq_some (getEntry fp k0) with hfp | ⟨⟨b, t⟩, hfp⟩
      · have hstep : (match getEntry fp k0 with
            | some (b, t) => setEntry fp k0 (b + a0, t)
            | none => fp) = fp := by rw [hfp]
        rw [hstep, ih hndrest fp k, hadj]
      · have hstep : (match getEntry fp k0 with
            | some (b, t) => setEntry fp k0 (b + a0, t)
            | none => fp) = setEntry fp k0 (b + a0, t) := by rw [hfp]
        rw [hstep, ih hndrest _ k,
          getEntry_setEntry_ne fp k0 k (b + a0, t) hk, hadj]

/-- Claim C1: for a batch whose rows all carry a state, the final balance
computed for an account equals the integer-cents balance of the
chronologically latest COMPLETED row (with a parseable balance) resolved
to that account, plus the sum of the signed cent amounts of all PENDING
rows resolved to that account. -/
theorem C1_import_balance (rows : List PRow) (r : PRow) (b : Int)
    (hmem : r ∈ rows)
    (hstates : ∀ x ∈ rows, x.state ≠ "")
    (hcomp : strToUpper r.state = "COMPLETED")
    (hb : balCents r.balance = some b)
    (hlatest : ∀ x ∈ rows, x.key = r.key → strToUpper x.state = "COMPLETED" →
      (balCents x.balance).isSome = true → x ≠ r → x.ts < r.ts) :
    getEntry (finalBalances rows) r.key
      = some (b + pendingSum rows r.key, r.ts) := by
  have hcomp' : isCompletedState r.state = true := by
    simp [isCompletedState, hcomp]
  have hlatest' : ∀ x ∈ rows, x.key = r.key → firstPassEligible x = true →
      x ≠ r → x.ts < r.ts := by
    intro x hx hkey helig hne
    have hxstate : x.state ≠ "" := hstates x hx
    simp only [firstPassEligible, Bool.and_eq_true_iff] at helig
    obtain ⟨⟨-, hcompx⟩, hsome⟩ := helig
    have hupper : strToUpper x.state = "COMPLETED" := by
      simp only [isCompletedState, Bool.or_eq_true_iff, beq_iff_eq] at hcompx
      rcases hcompx with h | h
      · exact absurd h hxstate
      · exact h
    exact hlatest x hx hkey hupper hsome hne
  have hfp := firstPass_latest rows r b hmem hb hcomp' hlatest'
  have hnd := pendingAdjustments_keys_nodup rows
  have hadj : getEntry (pendingAdjustments rows) r.key
      = optAdd none ((rows.filter
          (fun x => x.key == r.key && isPendingState x.state)).filterMap
          PRow.amount) := by
    unfold pendingAdjustments
    simpa [getEntry] using pending_proj r.key rows []
  rw [finalBalances,
    applyAdjustments_getEntry (pendingAdjustments rows) hnd
      (firstPass rows) r.key, hfp, hadj]
  rcases hl : (rows.filter
      (fun x => x.key == r.key && isPendingState x.state)).filterMap
      PRow.amount with _ | ⟨a1, l1⟩
  · rw [hl]
    unfold pendingSum
    rw [hl]
    simp [optAdd]
  · rw [hl]
    unfold pendingSum
    rw [hl]
    simp [optAdd]

/-- Witness for C1: the specified scenario — completed balances 10000,
15000, 9000 cents at timestamps 1 < 2 < 3 plus one pending −2000 cents —
yields a final balance of 7000 cents (70 units), from the latest
completed row's 9000 minus 20. -/
theorem C1_import_balance_witness :
    getEntry (finalBalances balScenario) "acc" = some (7000, 3) := by
  have h := C1_import_balance balScenario
    { key := "acc", state := "COMPLETED", amount := some (-6000),
      balance := BalField.cents 9000, ts := 3 } 9000
    (by decide) (by decide) (by decide) rfl (by decide)
  exact h.trans (by decide)

/-- Claim C10: an account none of whose rows pass the first-pass filter
(all rows pending, or completed rows without a parseable balance) gets no
final balance entry at all — the summed pending adjustment is only
applied to accounts with a first-pass balance, and no balance document is
written for such an account. -/
theorem C10_pending_only_no_doc (rows : List PRow) (k : String)
    (hnone : ∀ x ∈ rows, x.key = k → firstPassEligible x = false) :
    getEntry (finalBalances rows) k = none ∧
    ∀ e ∈ finalBalances rows, e.1 ≠ k := by
  have hfilter : rows.filter
      (fun x => x.key == k && firstPassEligible x) = [] := by
    refine List.filter_eq_nil_iff.mpr ?_
    intro x hx
    by_cases hkey : x.key = k
    · simp [hkey, hnone x hx hkey]
    · simp [hkey]
  have hfp : getEntry (firstPass rows) k = none := by
    rw [firstPass, firstPass_proj k rows [], hfilter]
    rfl
  have hnd := pendingAdjustments_keys_nodup rows
  constructor
  · rw [finalBalances,
      applyAdjustments_getEntry (pendingAdjustments rows) hnd
        (firstPass rows) k, hfp]
  · intro e he heq
    have hk : k ∈ (finalBalances rows).map Prod.fst :=
      List.mem_map.mpr ⟨e, he, heq⟩
    rw [finalBalances, applyAdjustments_keys] at hk
    exact getEntry_ne_none_of_mem_keys (firstPass rows) k hk hfp

/-- Witness for C10: a batch whose only row for account "p" is pending
produces no balance entry for "p". -/
theorem C10_pending_only_no_doc_witness :
    getEntry (finalBalances
      [{ key := "p", state := "PENDING", amount := some (-2000),
         balance := BalField.missing, ts := 1 }]) "p" = none :=
  (C10_pending_only_no_doc
    [{ key := "p", state := "PENDING", amount := some (-2000),
       balance := BalField.missing, ts := 1 }] "p" (by decide)).1

theorem getD_eq_get {α : Type} [Inhabited α] :
    ∀ (l : List α) (i : Nat) (h : i < l.length),
      l.getD i default = l.get ⟨i, h⟩ := by
  intro l
  induction l with
  | nil => intro i h; simp at h
  | cons a rest ih =>
    intro i h
    cases i with
    | zero => rfl
    | succ n => exact ih n (by simpa [Nat.succ_lt_succ_iff] using h)

theorem candidate_spec (txs : List ConvTx) (i j : Nat)
    (h : candidate txs i j = true) :
    i ≠ j ∧ i < txs.length ∧ j < txs.length := by
  unfold candidate at h
  rcases Option.eq_none_or_eq_some (txs.get? i) with hgi | ⟨a, hgi⟩ <;>
    rcases Option.eq_none_or_eq_some (txs.get? j) with hgj | ⟨b, hgj⟩ <;>
    rw [hgi, hgj] at h
  · exact absurd h (by simp)
  · exact absurd h (by simp)
  · exact absurd h (by simp)
  · simp only [Bool.and_eq_true_iff, decide_eq_true_eq] at h
    refine ⟨h.1.1.1.1.1, ?_, ?_⟩
    · exact (List.get?_eq_some.mp hgi).1
    · exact (List.get?_eq_some.mp hgj).1

theorem pickBest_spec (txs : List ConvTx) (i : Nat) (taken : List Nat) :
    ∀ j, pickBest txs i taken = some j →
      candidate txs i j = true ∧ taken.contains j = false := by
  unfold pickBest
  suffices hgen : ∀ (l : List Nat) (best : Option Nat),
      (∀ j, best = some j → candidate txs i j = true ∧
        taken.contains j = false) →
      ∀ j, (l.foldl (fun best j =>
        if candidate txs i j && !(taken.contains j) then
          match best with
          | none => some j
          | some j0 =>
            if timeDelta (txs.getD i default) (txs.getD j default)
                < timeDelta (txs.getD i default) (txs.getD j0 default) then
              some j
            else some j0
        else best) best) = some j →
        candidate txs i j = true ∧ taken.contains j = false by
    exact hgen (List.range txs.length) none (by intro j h; simp at h)
  intro l
  induction l with
  | nil => intro best hbest j h; exact hbest j h
  | cons x rest ih =>
    intro best hbest j h
    rw [List.foldl_cons] at h
    refine ih _ ?_ j h
    intro j' hj'
    by_cases hc : (candidate txs i x && !(taken.contains x)) = true
    · rw [if_pos hc] at hj'
      obtain ⟨hcand, hnt⟩ := Bool.and_eq_true_iff.mp hc
      have hnt' : taken.contains x = false := by simpa using hnt
      rcases Option.eq_none_or_eq_some best with hb | ⟨j0, hb⟩
      · rw [hb] at hj'
        obtain rfl : x = j' := by simpa using hj'
        exact ⟨hcand, hnt'⟩
      · rw [hb] at hj'
        have hj'' : (if timeDelta (txs.getD i default) (txs.getD x default)
            < timeDelta (txs.getD i default) (txs.getD j0 default) then
            some x else some j0) = some j' := hj'
        split_ifs at hj'' with ht
        · obtain rfl : x = j' := by simpa using hj''
          exact ⟨hcand, hnt'⟩
        · obtain rfl : j0 = j' := by simpa using hj''
          exact hbest _ hb
    · rw [if_neg hc] at hj'
      exact hbest j' hj'

theorem mem_pairMembers_of_mem :
    ∀ (pairs : List (Nat × Nat)) (p : Nat × Nat), p ∈ pairs →
      p.1 ∈ pairMembers pairs ∧ p.2 ∈ pairMembers pairs := by
  intro pairs
  induction pairs with
  | nil => intro p h; simp at h
  | cons q rest ih =>
    intro p h
    rcases List.mem_cons.mp h with rfl | h'
    · constructor
      · show p.1 ∈ p.1 :: p.2 :: pairMembers rest
        exact List.mem_cons_self _ _
      · show p.2 ∈ p.1 :: p.2 :: pairMembers rest
        exact List.mem_cons_of_mem _ (List.mem_cons_self _ _)
    · obtain ⟨h1, h2⟩ := ih p h'
      exact ⟨List.mem_cons_of_mem _ (List.mem_cons_of_mem _ h1),
        List.mem_cons_of_mem _ (List.mem_cons_of_mem _ h2)⟩

theorem pickPairs_spec (txs : List ConvTx) :
    (∀ p ∈ pickPairs txs, candidate txs p.1 p.2 = true) ∧
    (pairMembers (pickPairs txs)).Nodup := by
  unfold pickPairs
  suffices hgen : ∀ (l : List Nat) (st : List (Nat × Nat) × List Nat),
      ((∀ p ∈ st.1, candidate txs p.1 p.2 = true) ∧
        (pairMembers st.1).Nodup ∧
        (∀ x ∈ pairMembers st.1, st.2.contains x = true)) →
      ((∀ p ∈ (l.foldl (fun st i =>
          if st.2.contains i then st
          else
            match pickBest txs i st.2 with
            | some j => ((i, j) :: st.1, i :: j :: st.2)
            | none => st) st).1, candidate txs p.1 p.2 = true) ∧
        (pairMembers (l.foldl (fun st i =>
          if st.2.contains i then st
          else
            match pickBest txs i st.2 with
            | some j => ((i, j) :: st.1, i :: j :: st.2)
            | none => st) st).1).Nodup ∧
        (∀ x ∈ pairMembers (l.foldl (fun st i =>
          if st.2.contains i then st
          else
            match pickBest txs i st.2 with
            | some j => ((i, j) :: st.1, i :: j :: st.2)
            | none => st) st).1, (l.foldl (fun st i =>
          if st.2.contains i then st
          else
            match pickBest txs i st.2 with
            | some j => ((i, j) :: st.1, i :: j :: st.2)
            | none => st) st).2.contains x = true)) by
    have h := hgen (List.range txs.length) ([], [])
      ⟨by intro p hp; simp at hp, by constructor, by intro x hx; simp [pairMembers] at hx⟩
    exact ⟨h.1, h.2.1⟩
  intro l
  induction l with
  | nil => intro st h; exact h
  | cons x rest ih =>
    intro st h
    rw [List.foldl_cons]
    apply ih
    by_cases hctn : st.2.contains x = true
    · rw [if_pos hctn]; exact h
    · rw [if_neg hctn]
      rcases Option.eq_none_or_eq_some (pickBest txs x st.2) with hp | ⟨j, hp⟩
      · rw [hp]; exact h
      · rw [hp]
        obtain ⟨hcand, hnt⟩ := pickBest_spec txs x st.2 j hp
        obtain ⟨h1, h2, h3⟩ := h
        have hxj : x ≠ j := (candidate_spec txs x j hcand).1
        refine ⟨?_, ?_, ?_⟩
        · intro p hp'
          rcases List.mem_cons.mp hp' with rfl | hp''
          · exact hcand
          · exact h1 p hp''
        · show (x :: j :: pairMembers st.1).Nodup
          refine List.nodup_cons.mpr ⟨?_, List.nodup_cons.mpr ⟨?_, h2⟩⟩
          · intro hmem
            rcases List.mem_cons.mp hmem with rfl | hmem'
            · exact hxj rfl
            · exact hctn (h3 x hmem')
          · intro hmem
            have := h3 j hmem
            rw [hnt] at this
            exact absurd this (by simp)
        · intro y hy
          show ((x, j) :: st.1, x :: j :: st.2).2.contains y = true
          rcases List.mem_cons.mp hy with rfl | hy'
          · simp
          rcases List.mem_cons.mp hy' with rfl | hy''
          · simp
          · have hmem : y ∈ st.2 := by simpa using h3 y hy''
            simp [hmem]

theorem findPartner_of_mem :
    ∀ (pairs : List (Nat × Nat)), (pairMembers pairs).Nodup →
      ∀ a b, (a, b) ∈ pairs →
        findPartner pairs a = some b ∧ findPartner pairs b = some a := by
  intro pairs
  induction pairs with
  | nil => intro _ a b h; simp at h
  | cons q rest ih =>
    obtain ⟨x, y⟩ := q
    intro hnd a b hmem
    have hnd' : (x :: y :: pairMembers rest).Nodup := hnd
    have hx := List.nodup_cons.mp hnd'
    have hy := List.nodup_cons.mp hx.2
    have hxy : x ≠ y := fun h => hx.1 (h ▸ List.mem_cons_self _ _)
    have hxr : x ∉ pairMembers rest :=
      fun h => hx.1 (List.mem_cons_of_mem _ h)
    have hyr : y ∉ pairMembers rest := hy.1
    rcases List.mem_cons.mp hmem with heq | hmem'
    · have hax : a = x := (Prod.mk.inj heq).1
      have hby : b = y := (Prod.mk.inj heq).2
      subst hax
      subst hby
      constructor
      · show findPartner ((a, b) :: rest) a = some b
        unfold findPartner
        rw [if_pos rfl]
      · show findPartner ((a, b) :: rest) b = some a
        unfold findPartner
        rw [if_neg hxy, if_pos rfl]
    · obtain ⟨ha, hb⟩ := mem_pairMembers_of_mem rest (a, b) hmem'
      have ihab := ih hy.2 a b hmem'
      have hxa : ¬(x = a) := by rintro rfl; exact hxr ha
      have hya : ¬(y = a) := by rintro rfl; exact hyr ha
      have hxb : ¬(x = b) := by rintro rfl; exact hxr hb
      have hyb : ¬(y = b) := by rintro rfl; exact hyr hb
      constructor
      · show findPartner ((x, y) :: rest) a = some b
        unfold findPartner
        rw [if_neg hxa, if_neg hya]
        exact ihab.1
      · show findPartner ((x, y) :: rest) b = some a
        unfold findPartner
        rw [if_neg hxb, if_neg hyb]
        exact ihab.2

theorem findPartner_mem :
    ∀ (pairs : List (Nat × Nat)) (i j : Nat),
      findPartner pairs i = some j → (i, j) ∈ pairs ∨ (j, i) ∈ pairs := by
  intro pairs
  induction pairs with
  | nil => intro i j h; simp [findPartner] at h
  | cons q rest ih =>
    obtain ⟨x, y⟩ := q
    intro i j h
    unfold findPartner at h
    split_ifs at h with h1 h2
    · subst h1
      obtain rfl : y = j := by simpa using h
      exact Or.inl (List.mem_cons_self _ _)
    · subst h2
      obtain rfl : x = j := by simpa using h
      exact Or.inr (List.mem_cons_self _ _)
    · rcases ih i j h with h' | h'
      · exact Or.inl (List.mem_cons_of_mem _ h')
      · exact Or.inr (List.mem_cons_of_mem _ h')

theorem markTransfers_length (txs : List ConvTx) :
    (markTransfers txs).length = txs.length := by
  simp [markTransfers]

theorem markTransfers_get (txs : List ConvTx) (i : Nat)
    (hi : i < txs.length) (hi' : i < (markTransfers txs).length) :
    (markTransfers txs).get ⟨i, hi'⟩
      = match findPartner (pickPairs txs) i with
        | some j =>
          { txs.get ⟨i, hi⟩ with
            matchedTransferId := some ((txs.getD j default).id),
            excludeFromAnalytics := true, isAnalyticsProtected := true }
        | none => txs.get ⟨i, hi⟩ := by
  rcases Option.eq_none_or_eq_some (findPartner (pickPairs txs) i) with
    hp | ⟨j, hp⟩
  · simp only [markTransfers, List.get_eq_getElem, List.getElem_map,
      List.getElem_range, hp]
    simpa using getD_eq_get txs i hi
  · simp only [markTransfers, List.get_eq_getElem, List.getElem_map,
      List.getElem_range, hp]
    rw [getD_eq_get txs i hi]
    simp [List.get_eq_getElem]

theorem get_id_inj (txs : List ConvTx)
    (hids : (txs.map ConvTx.id).Nodup) {a b : Nat}
    (ha : a < txs.length) (hb : b < txs.length)
    (h : (txs.get ⟨a, ha⟩).id = (txs.get ⟨b, hb⟩).id) : a = b := by
  have ha' : a < (txs.map ConvTx.id).length := by simpa using ha
  have hb' : b < (txs.map ConvTx.id).length := by simpa using hb
  have hmap : (txs.map ConvTx.id).get ⟨a, ha'⟩
      = (txs.map ConvTx.id).get ⟨b, hb'⟩ := by
    simp only [List.get_eq_getElem, List.getElem_map]
    exact h
  have := (List.Nodup.get_inj_iff hids).mp hmap
  simpa using this

/-- Claim C7 (modelled from the spec, `markTransfers` not in `src/`):
for a batch with distinct ids and no pre-existing matches, if transaction
A receives a `matchedTransferId` pointing to B then B receives one
pointing back to A, both carry `excludeFromAnalytics = true` and
`isAnalyticsProtected = true`, and unmatched transactions are left
untouched. -/
theorem C7_transfer_matcher (txs : List ConvTx)
    (hids : (txs.map ConvTx.id).Nodup)
    (hclean : ∀ t ∈ txs, t.matchedTransferId = none) :
    (markTransfers txs).length = txs.length ∧
    (∀ (i j : Nat) (hi : i < txs.length) (hj : j < txs.length)
        (hi' : i < (markTransfers txs).length)
        (hj' : j < (markTransfers txs).length),
      ((markTransfers txs).get ⟨i, hi'⟩).matchedTransferId
          = some ((txs.get ⟨j, hj⟩).id) →
        ((markTransfers txs).get ⟨j, hj'⟩).matchedTransferId
            = some ((txs.get ⟨i, hi⟩).id) ∧
        ((markTransfers txs).get ⟨i, hi'⟩).excludeFromAnalytics = true ∧
        ((markTransfers txs).get ⟨i, hi'⟩).isAnalyticsProtected = true ∧
        ((markTransfers txs).get ⟨j, hj'⟩).excludeFromAnalytics = true ∧
        ((markTransfers txs).get ⟨j, hj'⟩).isAnalyticsProtected = true) ∧
    (∀ (i : Nat) (hi : i < txs.length)
        (hi' : i < (markTransfers txs).length),
      ((markTransfers txs).get ⟨i, hi'⟩).matchedTransferId = none →
        (markTransfers txs).get ⟨i, hi'⟩ = txs.get ⟨i, hi⟩) := by
  obtain ⟨hcands, hnodup⟩ := pickPairs_spec txs
  refine ⟨markTransfers_length txs, ?_, ?_⟩
  · intro i j hi hj hi' hj' hmatch
    rw [markTransfers_get txs i hi hi'] at hmatch
    rcases Option.eq_none_or_eq_some (findPartner (pickPairs txs) i) with
      hp | ⟨j', hp⟩
    · rw [hp] at hmatch
      rw [hclean _ (List.get_mem txs i hi)] at hmatch
      exact absurd hmatch (by simp)
    · rw [hp] at hmatch
      have hpair := findPartner_mem (pickPairs txs) i j' hp
      have hj'lt : j' < txs.length := by
        rcases hpair with hmem | hmem
        · exact (candidate_spec txs i j' (hcands _ hmem)).2.2
        · exact (candidate_spec txs j' i (hcands _ hmem)).2.1
      have hmatch' : some ((txs.getD j' default).id)
          = some ((txs.get ⟨j, hj⟩).id) := hmatch
      rw [getD_eq_get txs j' hj'lt] at hmatch'
      have hid : (txs.get ⟨j', hj'lt⟩).id = (txs.get ⟨j, hj⟩).id := by
        simpa using hmatch'
      obtain rfl : j' = j := get_id_inj txs hids hj'lt hj hid
      have hpj : findPartner (pickPairs txs) j' = some i := by
        rcases hpair with hmem | hmem
        · exact (findPartner_of_mem (pickPairs txs) hnodup i j' hmem).2
        · exact (findPartner_of_mem (pickPairs txs) hnodup j' i hmem).1
      refine ⟨?_, ?_, ?_, ?_, ?_⟩
      · rw [markTransfers_get txs j' hj hj', hpj]
        show some ((txs.getD i default).id) = some ((txs.get ⟨i, hi⟩).id)
        rw [getD_eq_get txs i hi]
      · rw [markTransfers_get txs i hi hi', hp]
      · rw [markTransfers_get txs i hi hi', hp]
      · rw [markTransfers_get txs j' hj hj', hpj]
      · rw [markTransfers_get txs j' hj hj', hpj]
  · intro i hi hi' hnone
    rw [markTransfers_get txs i hi hi'] at hnone ⊢
    rcases Option.eq_none_or_eq_some (findPartner (pickPairs txs) i) with
      hp | ⟨j, hp⟩
    · rw [hp]
    · rw [hp] at hnone
      exact absurd hnone (by simp)

/-- Witness for C7 at the specified scenario: a −50.00 debit and a
+50.00 credit in different accounts at the same time are matched
reciprocally and flagged. -/
theorem C7_transfer_matcher_witness :
    ((markTransfers
      [{ id := "a1", amount := -5000, account := "Main", time := 100 },
       { id := "a2", amount := 5000, account := "Savings",
         time := 100 }]).get ⟨1, by decide⟩).matchedTransferId
        = some "a1" ∧
    ((markTransfers
      [{ id := "a1", amount := -5000, account := "Main", time := 100 },
       { id := "a2", amount := 5000, account := "Savings",
         time := 100 }]).get ⟨0, by decide⟩).excludeFromAnalytics
        = true := by
  have h := (C7_transfer_matcher
      [{ id := "a1", amount := -5000, account := "Main", time := 100 },
       { id := "a2", amount := 5000, account := "Savings", time := 100 }]
      (by decide) (by decide)).2.1 0 1 (by decide) (by decide)
      (by decide) (by decide) (by decide)
  exact ⟨h.1.trans (by decide), h.2.1⟩

end BudgetApp
